import Mathlib

/-!
The driver `devchat`: a bounded in-kernel message log (`src/devchat.c`).

A shallow embedding of the character device `chat`:

* `chat_write` appends one message (a `struct s_chat`) at the head of a doubly linked list,
* `chat_read` walks the list from the tail and hands the consolidated bytes to the reader,
* `chat_ioctl` with `DEVCHATCLR` frees every entry.

Pointers are natural numbers, `0` is `NULL`.  The kernel heap is a partial map from addresses to
`struct s_chat` values.  `malloc(9)` without `M_ZERO` returns a block whose contents are not
initialised: the contents found in the fresh block are an explicit argument of `chat_write`.
Every operation returns an `Option`: `none` means that the run leaves defined behaviour (a null,
wild or dangling pointer is dereferenced, a buffer is overrun, a signed integer overflows, or a
loop never ends).
-/

namespace Devchat

/-! ## Constants -/

/-- `#define BUFFERSIZE 255` -/
def BUFFERSIZE : Nat := 255

/-- `#define LOGLEN 255` -/
def LOGLEN : Nat := 255

/-- `EFAULT` of `<sys/errno.h>`: the only error `uiomove(9)` reports. -/
def EFAULT : Int := 14

/-- `EINVAL` of `<sys/errno.h>`. -/
def EINVAL : Int := 22

/-- `ENOMSG` of `<sys/errno.h>` (FreeBSD). -/
def ENOMSG : Int := 83

/-- `EDOOFUS` of `<sys/errno.h>` (FreeBSD). -/
def EDOOFUS : Int := 88

/-- Largest value of a C `int`. -/
def INT_MAX : Int := 2147483647

/-- Number of values of a `size_t` (64 bit). -/
def SIZE_MOD : Int := 18446744073709551616

/-- The C macro `MIN(a, b)`, that is `(((a) < (b)) ? (a) : (b))`, on signed integers. -/
def MIN (a b : Int) : Int := if a < b then a else b

/-- Conversion of a signed 64 bit value to `size_t`. -/
def to_size_t (a : Int) : Nat := (a % SIZE_MOD).toNat

/-- Conversion of a `size_t` to `int`, as happens to the byte budget at the call of `uiomove`,
whose second parameter is `int n`: the low 32 bits, read as a signed value. -/
def to_int (a : Nat) : Int := ((a : Int) + 2147483648) % 4294967296 - 2147483648

/-! ## Data model -/

/-- `struct s_chat`: `msg` is the array `char msg[BUFFERSIZE + 1]` (index to byte), the two links
are addresses (`0` is `NULL`), `len` is an `int`. -/
structure s_chat where
  msg : Nat → Nat
  prev_msg : Nat
  next_msg : Nat
  len : Int

/-- The module state: the kernel heap of `M_CHATBUF` blocks, the next address `malloc` hands out,
and the three globals `chatmsgs_head`, `chatmsgs_tail`, `chatmsgs_len`. -/
structure State where
  heap : Nat → Option s_chat
  brk : Nat
  chatmsgs_head : Nat
  chatmsgs_tail : Nat
  chatmsgs_len : Int

/-- The state after `kldload`: no block allocated, both links `NULL`, counter `0`. -/
def init : State :=
  { heap := fun _ => none, brk := 1, chatmsgs_head := 0, chatmsgs_tail := 0, chatmsgs_len := 0 }

/-- The part of `struct uio` the driver uses: the offset, the residual byte count, the user memory
the request describes (`iov`: the bytes still to be written for a write, the bytes delivered so far
for a read), and whether touching that user memory faults. -/
structure uio where
  uio_offset : Int
  uio_resid : Int
  iov : List Nat
  fault : Bool

/-- What an entry point hands back: the new module state, the updated `uio` and the error code. -/
structure Ret where
  state : State
  io : uio
  error : Int

/-- Store `v` at address `p`. -/
def upd {α : Type} (h : Nat → α) (p : Nat) (v : α) : Nat → α :=
  fun a => if a = p then v else h a

/-- Dereference a pointer: `NULL` and addresses outside the live heap have no value. -/
def deref (h : Nat → Option s_chat) (p : Nat) : Option s_chat :=
  if p = 0 then none else h p

/-! ## The kernel services the driver calls -/

/-- `uiomove(9)`, that is `uiomove(void *cp, int n, struct uio *uio)`, on a `UIO_WRITE` request:
move `min(n, uio_resid)` bytes from user memory into the kernel buffer `cp`, starting at index
`base`; its loop runs `while (n > 0 && uio->uio_resid)`, so nothing is moved when `n <= 0`.
Nothing is moved, and `EFAULT` returned, when user memory faults; a move of zero bytes touches no
memory and succeeds. -/
def uiomove_in (cp : Nat → Nat) (base : Nat) (n : Int) (u : uio) : (Nat → Nat) × uio × Int :=
  let cnt := min n.toNat u.uio_resid.toNat
  if u.fault = true ∧ cnt ≠ 0 then (cp, u, EFAULT)
  else
    (fun j => if base ≤ j ∧ j < base + cnt then u.iov.getD (j - base) 0 else cp j,
     { u with uio_offset := u.uio_offset + cnt, uio_resid := u.uio_resid - cnt,
              iov := u.iov.drop cnt },
     0)

/-- `uiomove(9)` on a `UIO_READ` request: move the first `min(n, uio_resid)` bytes of the kernel
buffer `cp` to user memory (none when `n <= 0`). -/
def uiomove_out (cp : List Nat) (n : Int) (u : uio) : uio × Int :=
  let cnt := min n.toNat u.uio_resid.toNat
  if u.fault = true ∧ cnt ≠ 0 then (u, EFAULT)
  else
    ({ u with uio_offset := u.uio_offset + cnt, uio_resid := u.uio_resid - cnt,
              iov := u.iov ++ cp.take cnt },
     0)

/-! ## chat_write -/

/-- The eviction branch of `chat_write` (taken when `chatmsgs_len >= LOGLEN`):
`chatmsgs_tail->next_msg->prev_msg = 0; nextptr = chatmsgs_tail->next_msg; free(chatmsgs_tail);
chatmsgs_tail = nextptr;`.  Returns the new heap and the new tail. -/
def evict (h : Nat → Option s_chat) (tail : Nat) : Option ((Nat → Option s_chat) × Nat) :=
  match deref h tail with
  | none => none
  | some t =>
    match deref h t.next_msg with
    | none => none
    | some n =>
      let h1 := upd h t.next_msg (some { n with prev_msg := 0 })
      some (upd h1 tail none, t.next_msg)

/-- The linking step of `chat_write`: `if (chatmsgs_head != NULL) chatmsgs_head->next_msg = msg;
else chatmsgs_tail = msg; msg->prev_msg = chatmsgs_head;`.  Returns the new heap and the new
tail. -/
def insert_head (h : Nat → Option s_chat) (head tail msg : Nat) :
    Option ((Nat → Option s_chat) × Nat) :=
  match (if head ≠ 0 then
           match deref h head with
           | none => none
           | some hd => some (upd h head (some { hd with next_msg := msg }), tail)
         else some (h, msg)) with
  | none => none
  | some (h2, tail2) =>
    match deref h2 msg with
    | none => none
    | some m => some (upd h2 msg (some { m with prev_msg := head }), tail2)

/-- The part of `chat_write` under the comment `List maintenance`, up to the `return`: `e` is the
new entry as filled in so far (stored in the fresh block at address `brk`), `error` is what
`uiomove` returned.  The counter is incremented exactly when `error != 0`: the only statement the
`if (error != 0)` governs is `chatmsgs_len++`, the lines between them being comments. -/
def list_maintenance (s : State) (e : s_chat) (error : Int) : Option State :=
  let msg := s.brk
  let h0 := upd s.heap msg (some e)
  match (if s.chatmsgs_len ≥ (LOGLEN : Int) then evict h0 s.chatmsgs_tail
         else some (h0, s.chatmsgs_tail)) with
  | none => none
  | some (h1, tail1) =>
    match insert_head h1 s.chatmsgs_head tail1 msg with
    | none => none
    | some (h3, tail2) =>
      if error ≠ 0 then
        if s.chatmsgs_len ≥ INT_MAX then none
        else some { heap := h3, brk := s.brk + 1, chatmsgs_head := msg, chatmsgs_tail := tail2,
                    chatmsgs_len := s.chatmsgs_len + 1 }
      else some { heap := h3, brk := s.brk + 1, chatmsgs_head := msg, chatmsgs_tail := tail2,
                  chatmsgs_len := s.chatmsgs_len }

/-- The entry `chat_write` builds in the fresh block before the list maintenance: the bytes moved
by `uiomove` (which receives the `size_t` budget `amt` as an `int`), `msg->len = uio->uio_offset`,
`msg->msg[msg->len] = 0`; `none` when the copy or the terminator falls outside `msg`, or
`BUFFERSIZE - msg->len` overflows. -/
def fill_entry (u : uio) (g : s_chat) : Option (s_chat × uio × Int) :=
  let room : Int := (BUFFERSIZE : Int) - g.len
  if room > INT_MAX then none
  else
    let amt := to_size_t (MIN u.uio_resid room)
    let base := u.uio_offset.toNat
    if base + min (to_int amt).toNat u.uio_resid.toNat > BUFFERSIZE + 1 then none
    else
      let r := uiomove_in g.msg base (to_int amt) u
      let len := r.2.1.uio_offset
      if len < 0 ∨ len > (BUFFERSIZE : Int) then none
      else some ({ g with msg := upd r.1 len.toNat 0, len := len }, r.2.1, r.2.2)

/-- `chat_write(dev, uio, ioflag)`; `g` is what the block returned by `malloc` contains. -/
def chat_write (s : State) (u : uio) (g : s_chat) : Option Ret :=
  if u.uio_offset ≠ 0 then some ⟨s, u, EINVAL⟩
  else
    match fill_entry u g with
    | none => none
    | some (e, u1, error) =>
      match list_maintenance s e error with
      | none => none
      | some s1 => some ⟨s1, u1, error⟩

/-! ## chat_read -/

/-- The inner `for` loop of `chat_read`: the bytes of `msg[0 .. BUFFERSIZE)` before the first
zero byte. -/
def chunk (m : Nat → Nat) : List Nat :=
  ((List.range BUFFERSIZE).map m).takeWhile (fun c => c != 0)

/-- The `while (i != NULL)` loop of `chat_read`, with the bytes stored in `msgs` so far.  The
buffer `msgs` has `LOGLEN * BUFFERSIZE + 1` slots. -/
def read_loop (h : Nat → Option s_chat) : Nat → Nat → List Nat → Option (List Nat)
  | 0, i, msgs => if i = 0 then some msgs else none
  | fuel + 1, i, msgs =>
    if i = 0 then some msgs
    else
      match h i with
      | none => none
      | some e =>
        if (msgs ++ chunk e.msg).length > LOGLEN * BUFFERSIZE + 1 then none
        else read_loop h fuel e.next_msg (msgs ++ chunk e.msg)

/-- The consolidated content `chat_read` builds (the first `len` bytes of `msgs`).  A walk that
does not end within `brk` entries visits some entry twice and never ends. -/
def consolidate (s : State) : Option (List Nat) :=
  match read_loop s.heap s.brk s.chatmsgs_tail [] with
  | none => none
  | some c => if c.length > LOGLEN * BUFFERSIZE then none else some c

/-- The byte budget of `chat_read`:
`MIN(uio_resid, uio_offset >= len + 1 ? 0 : len + 1 - uio_offset)` as a `size_t`. -/
def read_amt (u : uio) (len : Int) : Nat :=
  to_size_t (MIN u.uio_resid (if u.uio_offset ≥ len + 1 then 0 else len + 1 - u.uio_offset))

/-- `chat_read(dev, uio, ioflag)`. -/
def chat_read (s : State) (u : uio) : Option Ret :=
  if s.chatmsgs_tail = 0 then some ⟨s, u, ENOMSG⟩
  else
    match consolidate s with
    | none => none
    | some c =>
      let msgs := c ++ [0]
      let amt := read_amt u c.length
      if min (to_int amt).toNat u.uio_resid.toNat > msgs.length then none
      else
        let r := uiomove_out msgs (to_int amt) u
        some ⟨s, r.1, r.2⟩

/-! ## chat_ioctl -/

/-- The loop `while (it != NULL) { tmp = it->prev_msg; free(it); it = tmp; }`. -/
def free_loop : Nat → Nat → (Nat → Option s_chat) → Option (Nat → Option s_chat)
  | 0, it, h => if it = 0 then some h else none
  | fuel + 1, it, h =>
    if it = 0 then some h
    else
      match h it with
      | none => none
      | some e => free_loop fuel e.prev_msg (upd h it none)

/-- `chat_ioctl(dev, cmd, ...)`; the command code `DEVCHATCLR` comes from `devchat.h`. -/
def chat_ioctl (DEVCHATCLR : Nat) (s : State) (cmd : Nat) : Option (State × Int) :=
  if cmd = DEVCHATCLR then
    match free_loop s.brk s.chatmsgs_head s.heap with
    | none => none
    | some h => some ({ s with heap := h, chatmsgs_head := 0, chatmsgs_tail := 0 }, 0)
  else some (s, EDOOFUS)

/-! ## Observations -/

/-- The addresses linked into the log, oldest first: the walk over `prev_msg` from the head. -/
def prev_walk (h : Nat → Option s_chat) : Nat → Nat → Option (List Nat)
  | 0, it => if it = 0 then some [] else none
  | fuel + 1, it =>
    if it = 0 then some []
    else
      match h it with
      | none => none
      | some e => (prev_walk h fuel e.prev_msg).map (fun l => l ++ [it])

/-- The stored message of an entry: the first `len` bytes of `msg`. -/
def content (e : s_chat) : List Nat := (List.range e.len.toNat).map e.msg

/-- The messages held by the log, oldest first. -/
def entries (s : State) : Option (List (List Nat)) :=
  (prev_walk s.heap s.brk s.chatmsgs_head).map
    (fun l => l.map (fun a => match s.heap a with
                              | none => []
                              | some e => content e))

/-- A write request of the bytes `data` at offset `off`. -/
def write_req (data : List Nat) (off : Int) (fault : Bool) : uio :=
  { uio_offset := off, uio_resid := data.length, iov := data, fault := fault }

/-- A read request of `r` bytes at offset `off` into an empty user buffer. -/
def read_req (off : Int) (r : Nat) (fault : Bool) : uio :=
  { uio_offset := off, uio_resid := r, iov := [], fault := fault }

/-- A fresh block that happens to be zero filled. -/
def zeroed : s_chat := { msg := fun _ => 0, prev_msg := 0, next_msg := 0, len := 0 }

/-! ## The representation invariant, reachable states and scenarios -/

/-- The shape of every state the driver can reach: the live blocks are exactly the addresses
`lo, lo + 1, ..., brk - 1`, linked in that order (`lo` is the tail and oldest entry, `brk - 1` the
head and newest one); the `next_msg` link of the head is whatever `malloc` left there. -/
structure Inv (s : State) (lo : Nat) : Prop where
  lo_pos : 1 ≤ lo
  lo_le : lo ≤ s.brk
  live : ∀ a, (∃ e, s.heap a = some e) ↔ (lo ≤ a ∧ a < s.brk)
  head : s.chatmsgs_head = if lo < s.brk then s.brk - 1 else 0
  tail : s.chatmsgs_tail = if lo < s.brk then lo else 0
  prev : ∀ a e, s.heap a = some e → e.prev_msg = if a = lo then 0 else a - 1
  next : ∀ a e, s.heap a = some e → a + 1 < s.brk → e.next_msg = a + 1

/-- When the list maintenance of `chat_write` has a defined outcome. -/
def maintenance_ok (s : State) (lo : Nat) (error : Int) : Prop :=
  (s.chatmsgs_len < (LOGLEN : Int) ∨ lo + 1 < s.brk) ∧ (error = 0 ∨ s.chatmsgs_len < INT_MAX)

/-- What `F` sees in the entries `lo .. brk - 1`, oldest first. -/
def log_by (F : s_chat → List Nat) (s : State) (lo : Nat) : List (List Nat) :=
  (List.range' lo (s.brk - lo)).map (fun a => match s.heap a with
                                              | none => []
                                              | some e => F e)

/-- The messages of the entries `lo .. brk - 1`, oldest first. -/
def log_of (s : State) (lo : Nat) : List (List Nat) := log_by content s lo

/-- The states the driver reaches from `init` by calls of its entry points that have a defined
outcome; `D` is the command code `DEVCHATCLR`. -/
inductive Reachable (D : Nat) : State → Prop
  | init : Reachable D init
  | write (s : State) (u : uio) (g : s_chat) (r : Ret) :
      Reachable D s → chat_write s u g = some r → Reachable D r.state
  | read (s : State) (u : uio) (r : Ret) :
      Reachable D s → chat_read s u = some r → Reachable D r.state
  | ioctl (s : State) (cmd : Nat) (s1 : State) (err : Int) :
      Reachable D s → chat_ioctl D s cmd = some (s1, err) → Reachable D s1

/-- Successive appends: each message is written at offset 0 into a zero filled block and each
copy succeeds. -/
def appends (s : State) : List (List Nat) → Option State
  | [] => some s
  | m :: ms => (chat_write s (write_req m 0 false) zeroed).bind (fun r => appends r.state ms)

/-- The head entry, if any, has a null `next_msg`. -/
def Clean (s : State) : Prop := ∀ e, s.heap (s.brk - 1) = some e → e.next_msg = 0

/-- Successive appends whose copy fails: `n` writes of one byte at offset 0 from user memory that
faults, each into a zero filled block. -/
def fails (s : State) : Nat → Option State
  | 0 => some s
  | n + 1 => (chat_write s (write_req [65] 0 true) zeroed).bind (fun r => fails r.state n)

/-- The clear command as a step on optional states (`DEVCHATCLR` taken to be `1`). -/
def clear (s : State) : Option State := (chat_ioctl 1 s 1).map (fun p => p.1)

/-- 256 distinct two byte messages without a zero byte. -/
def distinct_messages : List (List Nat) :=
  (List.range 256).map (fun i => [i % 255 + 1, i / 255 + 1])

/-! ## Properties of the representation invariant -/

theorem inv_init : Inv init 1 := by
  refine ⟨le_refl _, le_refl _, ?_, rfl, rfl, ?_, ?_⟩
  · intro a
    simp [init]
    omega
  · intro a e h
    simp [init] at h
  · intro a e h
    simp [init] at h

theorem inv_dead {s : State} {lo : Nat} (hI : Inv s lo) (a : Nat) (h : ¬ (lo ≤ a ∧ a < s.brk)) :
    s.heap a = none := by
  cases hh : s.heap a with
  | none => rfl
  | some e => exact absurd ((hI.live a).1 ⟨e, hh⟩) h

theorem inv_alive {s : State} {lo : Nat} (hI : Inv s lo) (a : Nat) (h1 : lo ≤ a) (h2 : a < s.brk) :
    ∃ e, s.heap a = some e := (hI.live a).2 ⟨h1, h2⟩

/-- The linking step on a heap in which the fresh block `brk` holds `e` and the older entries are
`lo .. brk - 1`: it succeeds and gives a heap of the invariant shape with `brk` as the head. -/
theorem link_inv (h : Nat → Option s_chat) (lo brk : Nat) (e : s_chat) (c : Int)
    (hlo : 1 ≤ lo) (hle : lo ≤ brk) (hnew : h brk = some e)
    (hlive : ∀ a, a ≠ brk → ((∃ x, h a = some x) ↔ (lo ≤ a ∧ a < brk)))
    (hprev : ∀ a x, a ≠ brk → h a = some x → x.prev_msg = if a = lo then 0 else a - 1)
    (hnext : ∀ a x, h a = some x → a + 1 < brk → x.next_msg = a + 1) :
    ∃ h3, insert_head h (if lo < brk then brk - 1 else 0) (if lo < brk then lo else 0) brk
        = some (h3, lo)
      ∧ Inv { heap := h3, brk := brk + 1, chatmsgs_head := brk, chatmsgs_tail := lo,
              chatmsgs_len := c } lo
      ∧ (∃ e1, h3 brk = some e1 ∧ e1.msg = e.msg ∧ e1.len = e.len ∧ e1.next_msg = e.next_msg)
      ∧ (∀ a x, a ≠ brk → h a = some x →
            ∃ x1, h3 a = some x1 ∧ x1.msg = x.msg ∧ x1.len = x.len) := by
  by_cases hlt : lo < brk
  · obtain ⟨x, hx⟩ := (hlive (brk - 1) (by omega)).2 ⟨by omega, by omega⟩
    have h1 : brk - 1 ≠ 0 := by omega
    have h2 : brk ≠ 0 := by omega
    have h3 : brk ≠ brk - 1 := by omega
    refine ⟨upd (upd h (brk - 1) (some { x with next_msg := brk })) brk
      (some { e with prev_msg := brk - 1 }), ?_, ?_, ?_, ?_⟩
    · simp [insert_head, deref, hlt, h1, h2, hx, upd, h3, hnew]
    · refine ⟨hlo, by simp; omega, ?_, ?_, ?_, ?_, ?_⟩
      · intro a
        by_cases ha : a = brk
        · subst ha
          simp [upd]
          omega
        · by_cases hb : a = brk - 1
          · subst hb
            simp [upd, ha]
            omega
          · simp only [upd, ha, hb, if_false]
            rw [hlive a ha]
            omega
      · simp
        split_ifs <;> omega
      · simp
        split_ifs <;> omega
      · intro a y hy
        by_cases ha : a = brk
        · subst ha
          simp [upd] at hy
          subst hy
          simp
          split_ifs <;> omega
        · by_cases hb : a = brk - 1
          · subst hb
            simp [upd, ha] at hy
            subst hy
            simpa using hprev _ x ha hx
          · simp only [upd, ha, hb, if_false] at hy
            exact hprev a y ha hy
      · intro a y hy hlt2
        simp at hlt2
        have ha : a ≠ brk := by omega
        by_cases hb : a = brk - 1
        · subst hb
          simp [upd, ha] at hy
          subst hy
          simp
          omega
        · simp only [upd, ha, hb, if_false] at hy
          exact hnext a y hy (by omega)
    · exact ⟨{ e with prev_msg := brk - 1 }, by simp [upd], rfl, rfl, rfl⟩
    · intro a y ha hy
      by_cases hb : a = brk - 1
      · subst hb
        rw [hx] at hy
        cases hy
        exact ⟨{ x with next_msg := brk }, by simp [upd, ha], rfl, rfl⟩
      · exact ⟨y, by simp [upd, ha, hb, hy], rfl, rfl⟩
  · have hEq : lo = brk := by omega
    subst hEq
    have h2 : lo ≠ 0 := by omega
    refine ⟨upd h lo (some { e with prev_msg := 0 }), ?_, ?_, ?_, ?_⟩
    · simp [insert_head, deref, h2, hnew]
    · refine ⟨hlo, by simp, ?_, ?_, ?_, ?_, ?_⟩
      · intro a
        by_cases ha : a = lo
        · subst ha
          simp [upd]
        · simp only [upd, ha, if_false]
          rw [hlive a ha]
          omega
      · simp
      · simp
      · intro a y hy
        by_cases ha : a = lo
        · subst ha
          simp [upd] at hy
          subst hy
          simp
        · simp only [upd, ha, if_false] at hy
          have := (hlive a ha).1 ⟨y, hy⟩
          omega
      · intro a y hy hlt2
        simp at hlt2
        have ha : a ≠ lo := by omega
        simp only [upd, ha, if_false] at hy
        have := (hlive a ha).1 ⟨y, hy⟩
        omega
    · exact ⟨{ e with prev_msg := 0 }, by simp [upd], rfl, rfl, rfl⟩
    · intro a y ha hy
      exact ⟨y, by simp [upd, ha, hy], rfl, rfl⟩

/-- The eviction branch on a log of at least two entries: the tail `lo` is freed and `lo + 1`
becomes the tail, with a null `prev_msg`. -/
theorem evict_ok {s : State} {lo : Nat} (hI : Inv s lo) (e : s_chat) (h2 : lo + 1 < s.brk) :
    ∃ n, s.heap (lo + 1) = some n ∧
      evict (upd s.heap s.brk (some e)) s.chatmsgs_tail
        = some (upd (upd (upd s.heap s.brk (some e)) (lo + 1) (some { n with prev_msg := 0 }))
                  lo none, lo + 1) := by
  obtain ⟨t, ht⟩ := inv_alive hI lo (le_refl _) (by omega)
  obtain ⟨n, hn⟩ := inv_alive hI (lo + 1) (by omega) h2
  have hnx : t.next_msg = lo + 1 := hI.next lo t ht h2
  have hlo := hI.lo_pos
  have h3 : lo ≠ s.brk := by omega
  have h4 : lo + 1 ≠ s.brk := by omega
  have h5 : lo ≠ 0 := by omega
  have h6 : lo < s.brk := by omega
  refine ⟨n, hn, ?_⟩
  rw [hI.tail]
  simp [evict, deref, upd, h3, h4, h5, h6, ht, hnx, hn]

/-- The eviction branch on a log of fewer than two entries has no defined outcome that the
linking step survives: either the tail is `NULL`, or its `next_msg` was never set. -/
theorem evict_crash {s : State} {lo : Nat} (hI : Inv s lo) (e : s_chat) (h2 : ¬ lo + 1 < s.brk) :
    ∀ h1 t1, evict (upd s.heap s.brk (some e)) s.chatmsgs_tail = some (h1, t1) →
      insert_head h1 s.chatmsgs_head t1 s.brk = none := by
  intro h1 t1 hev
  have hlo := hI.lo_pos
  by_cases h6 : lo < s.brk
  · have hb : s.brk = lo + 1 := by omega
    obtain ⟨t, ht⟩ := inv_alive hI lo (le_refl _) h6
    have h3 : lo ≠ s.brk := by omega
    have h5 : lo ≠ 0 := by omega
    rw [hI.tail] at hev
    rw [hI.head]
    simp only [evict, deref, h6, if_true, h5, if_false, upd, h3, ht] at hev
    split at hev
    · exact absurd hev (by simp)
    · rename_i n hn
      simp only [Option.some.injEq, Prod.mk.injEq] at hev
      obtain ⟨hh, _⟩ := hev
      subst hh
      have h7 : s.brk - 1 = lo := by omega
      simp [insert_head, deref, h6, h7, h5, upd]
  · have hb : s.brk = lo := by have := hI.lo_le; omega
    rw [hI.tail] at hev
    simp [evict, deref, h6] at hev

/-- The list maintenance on a state of the invariant shape, when it is defined: the new entry
becomes the head, the tail is evicted exactly when `chatmsgs_len >= LOGLEN`, and the counter grows
exactly when the copy failed. -/
theorem list_maintenance_ok {s : State} {lo : Nat} (hI : Inv s lo) (e : s_chat) (error : Int)
    (hok : maintenance_ok s lo error) :
    ∃ s1, list_maintenance s e error = some s1
      ∧ Inv s1 (if s.chatmsgs_len ≥ (LOGLEN : Int) then lo + 1 else lo)
      ∧ s1.brk = s.brk + 1
      ∧ s1.chatmsgs_len = (if error ≠ 0 then s.chatmsgs_len + 1 else s.chatmsgs_len)
      ∧ (∃ e1, s1.heap s.brk = some e1 ∧ e1.msg = e.msg ∧ e1.len = e.len
            ∧ e1.next_msg = e.next_msg)
      ∧ (∀ a x, (if s.chatmsgs_len ≥ (LOGLEN : Int) then lo + 1 else lo) ≤ a → a < s.brk →
            s.heap a = some x → ∃ x1, s1.heap a = some x1 ∧ x1.msg = x.msg ∧ x1.len = x.len) := by
  obtain ⟨hok1, hok2⟩ := hok
  have hlo := hI.lo_pos
  have hle := hI.lo_le
  by_cases hge : s.chatmsgs_len ≥ (LOGLEN : Int)
  · have h2 : lo + 1 < s.brk := by
      rcases hok1 with h | h
      · omega
      · exact h
    obtain ⟨n, hn, hev⟩ := evict_ok hI e h2
    have h3 : lo ≠ s.brk := by omega
    have h4 : lo + 1 ≠ s.brk := by omega
    obtain ⟨h3', hins, hInv, hnew, hold⟩ := link_inv
      (upd (upd (upd s.heap s.brk (some e)) (lo + 1) (some { n with prev_msg := 0 })) lo none)
      (lo + 1) s.brk e (if error ≠ 0 then s.chatmsgs_len + 1 else s.chatmsgs_len)
      (by omega) (by omega) (by simp [upd, h3.symm, h4.symm])
      (by
        intro a ha
        by_cases ha1 : a = lo
        · subst ha1
          simp [upd]
        · by_cases ha2 : a = lo + 1
          · subst ha2
            simp [upd]
            omega
          · simp only [upd, ha, ha1, ha2, if_false]
            rw [hI.live a]
            omega)
      (by
        intro a x ha hx
        by_cases ha1 : a = lo
        · subst ha1
          simp [upd] at hx
        · by_cases ha2 : a = lo + 1
          · subst ha2
            simp [upd, ha] at hx
            subst hx
            simp
          · simp only [upd, ha, ha1, ha2, if_false] at hx
            rw [hI.prev a x hx]
            simp [ha1, ha2])
      (by
        intro a x hx hlt
        have ha : a ≠ s.brk := by omega
        by_cases ha1 : a = lo
        · subst ha1
          simp [upd] at hx
        · by_cases ha2 : a = lo + 1
          · subst ha2
            simp [upd, ha] at hx
            subst hx
            exact hI.next _ n hn hlt
          · simp only [upd, ha, ha1, ha2, if_false] at hx
            exact hI.next a x hx hlt)
    have hins2 : insert_head
        (upd (upd (upd s.heap s.brk (some e)) (lo + 1) (some { n with prev_msg := 0 })) lo none)
        s.chatmsgs_head (lo + 1) s.brk = some (h3', lo + 1) := by
      rw [hI.head]
      have h6 : lo < s.brk := by omega
      simpa [h2, h6] using hins
    have hold2 : ∀ a x, lo + 1 ≤ a → a < s.brk → s.heap a = some x →
        ∃ x1, h3' a = some x1 ∧ x1.msg = x.msg ∧ x1.len = x.len := by
      intro a x ha1 ha2 hx
      have ha : a ≠ s.brk := by omega
      have ha3 : a ≠ lo := by omega
      by_cases ha4 : a = lo + 1
      · subst ha4
        rw [hn] at hx
        cases hx
        exact hold (lo + 1) { n with prev_msg := 0 } ha (by simp [upd, ha3])
      · exact hold a x ha (by simp [upd, ha, ha3, ha4, hx])
    refine ⟨{ heap := h3', brk := s.brk + 1, chatmsgs_head := s.brk, chatmsgs_tail := lo + 1,
              chatmsgs_len := if error ≠ 0 then s.chatmsgs_len + 1 else s.chatmsgs_len },
      ?_, by rw [if_pos hge]; exact hInv, rfl, rfl, hnew, by rw [if_pos hge]; exact hold2⟩
    by_cases herr : error ≠ 0
    · have hmax : ¬ s.chatmsgs_len ≥ INT_MAX := by
        rcases hok2 with h | h
        · exact absurd h herr
        · omega
      simp [list_maintenance, hge, hev, hins2, herr, hmax]
    · simp [list_maintenance, hge, hev, hins2, herr]
  · have h3 : ∀ a, a ≠ s.brk → upd s.heap s.brk (some e) a = s.heap a := by
      intro a ha
      simp [upd, ha]
    obtain ⟨h3', hins, hInv, hnew, hold⟩ := link_inv (upd s.heap s.brk (some e))
      lo s.brk e (if error ≠ 0 then s.chatmsgs_len + 1 else s.chatmsgs_len)
      hlo hle (by simp [upd])
      (by
        intro a ha
        rw [h3 a ha]
        exact hI.live a)
      (by
        intro a x ha hx
        rw [h3 a ha] at hx
        exact hI.prev a x hx)
      (by
        intro a x hx hlt
        have ha : a ≠ s.brk := by omega
        rw [h3 a ha] at hx
        exact hI.next a x hx hlt)
    have hins2 : insert_head (upd s.heap s.brk (some e)) s.chatmsgs_head s.chatmsgs_tail s.brk
        = some (h3', lo) := by
      rw [hI.head, hI.tail]
      exact hins
    have hold2 : ∀ a x, lo ≤ a → a < s.brk → s.heap a = some x →
        ∃ x1, h3' a = some x1 ∧ x1.msg = x.msg ∧ x1.len = x.len := by
      intro a x _ ha2 hx
      have ha : a ≠ s.brk := by omega
      exact hold a x ha (by rw [h3 a ha]; exact hx)
    refine ⟨{ heap := h3', brk := s.brk + 1, chatmsgs_head := s.brk, chatmsgs_tail := lo,
              chatmsgs_len := if error ≠ 0 then s.chatmsgs_len + 1 else s.chatmsgs_len },
      ?_, by rw [if_neg hge]; exact hInv, rfl, rfl, hnew, by rw [if_neg hge]; exact hold2⟩
    by_cases herr : error ≠ 0
    · have hmax : ¬ s.chatmsgs_len ≥ INT_MAX := by
        rcases hok2 with h | h
        · exact absurd h herr
        · omega
      simp [list_maintenance, hge, hins2, herr, hmax]
    · simp [list_maintenance, hge, hins2, herr]

/-- Outside `maintenance_ok` the list maintenance has no defined outcome. -/
theorem list_maintenance_crash {s : State} {lo : Nat} (hI : Inv s lo) (e : s_chat) (error : Int)
    (hok : ¬ maintenance_ok s lo error) : list_maintenance s e error = none := by
  by_cases hok1 : s.chatmsgs_len < (LOGLEN : Int) ∨ lo + 1 < s.brk
  · have hok2 : ¬ (error = 0 ∨ s.chatmsgs_len < INT_MAX) := fun h => hok ⟨hok1, h⟩
    push_neg at hok2
    obtain ⟨herr, hmax⟩ := hok2
    cases hl : list_maintenance s e error with
    | none => rfl
    | some s1 =>
      exfalso
      simp only [list_maintenance] at hl
      split at hl
      · exact absurd hl (by simp)
      · split at hl
        · exact absurd hl (by simp)
        · simp [herr, hmax] at hl
  · push_neg at hok1
    obtain ⟨hge, h2⟩ := hok1
    have h2' : ¬ lo + 1 < s.brk := by omega
    have hcr := evict_crash hI e h2'
    simp only [list_maintenance, ge_iff_le, hge, if_true]
    cases hev : evict (upd s.heap s.brk (some e)) s.chatmsgs_tail with
    | none => rfl
    | some p =>
      obtain ⟨h1, t1⟩ := p
      simp [hcr h1 t1 hev]

/-! ## The walks over the links -/

theorem prev_walk_null (h : Nat → Option s_chat) (fuel : Nat) : prev_walk h fuel 0 = some [] := by
  cases fuel <;> simp [prev_walk]

/-- On a heap of the invariant shape the walk over `prev_msg` from `lo + n` visits
`lo, ..., lo + n`. -/
theorem prev_walk_range (h : Nat → Option s_chat) (lo : Nat) (hlo : 1 ≤ lo)
    (hprev : ∀ a e, h a = some e → e.prev_msg = if a = lo then 0 else a - 1) :
    ∀ n fuel, n + 1 ≤ fuel → (∀ a, lo ≤ a → a ≤ lo + n → ∃ e, h a = some e) →
      prev_walk h fuel (lo + n) = some (List.range' lo (n + 1)) := by
  intro n
  induction n with
  | zero =>
    intro fuel hf hl
    obtain ⟨f, rfl⟩ : ∃ f, fuel = f + 1 := ⟨fuel - 1, by omega⟩
    obtain ⟨e, he⟩ := hl lo (le_refl _) (by omega)
    have hp := hprev lo e he
    have h0 : lo ≠ 0 := by omega
    simp [prev_walk, h0, he, hp, prev_walk_null]
  | succ n ih =>
    intro fuel hf hl
    obtain ⟨f, rfl⟩ : ∃ f, fuel = f + 1 := ⟨fuel - 1, by omega⟩
    obtain ⟨e, he⟩ := hl (lo + (n + 1)) (by omega) (le_refl _)
    have hp := hprev _ e he
    have h0 : lo + (n + 1) ≠ 0 := by omega
    have h1 : lo + (n + 1) ≠ lo := by omega
    rw [if_neg h1] at hp
    have h2 : lo + (n + 1) - 1 = lo + n := by omega
    rw [h2] at hp
    have ih2 := ih f (by omega) (fun a ha1 ha2 => hl a ha1 (by omega))
    simp only [prev_walk, h0, if_false, he, hp, ih2, Option.map_some']
    congr 1
    rw [List.range'_1_concat lo (n + 1)]

theorem prev_walk_inv {s : State} {lo : Nat} (hI : Inv s lo) :
    prev_walk s.heap s.brk s.chatmsgs_head = some (List.range' lo (s.brk - lo)) := by
  have hlo := hI.lo_pos
  rw [hI.head]
  by_cases hlt : lo < s.brk
  · rw [if_pos hlt]
    have h1 : s.brk - 1 = lo + (s.brk - 1 - lo) := by omega
    have h2 : s.brk - lo = (s.brk - 1 - lo) + 1 := by omega
    rw [h1, h2]
    exact prev_walk_range s.heap lo hlo hI.prev _ _ (by omega)
      (fun a ha1 ha2 => inv_alive hI a ha1 (by omega))
  · rw [if_neg hlt]
    have h1 : s.brk - lo = 0 := by omega
    rw [h1, prev_walk_null]
    rfl

/-- In a state of the invariant shape the log holds the entries `lo .. brk - 1`. -/
theorem entries_inv {s : State} {lo : Nat} (hI : Inv s lo) : entries s = some (log_of s lo) := by
  simp [entries, prev_walk_inv hI, log_of, log_by]

theorem free_loop_null (fuel : Nat) (h : Nat → Option s_chat) : free_loop fuel 0 h = some h := by
  cases fuel <;> simp [free_loop]

/-- Freeing from `lo + n` down the `prev_msg` links frees exactly `lo .. lo + n`. -/
theorem free_loop_range (lo : Nat) (hlo : 1 ≤ lo) :
    ∀ n fuel (h : Nat → Option s_chat), n + 1 ≤ fuel →
      (∀ a, lo ≤ a → a ≤ lo + n →
          ∃ e, h a = some e ∧ e.prev_msg = if a = lo then 0 else a - 1) →
      ∃ h1, free_loop fuel (lo + n) h = some h1
        ∧ ∀ a, h1 a = if lo ≤ a ∧ a ≤ lo + n then none else h a := by
  intro n
  induction n with
  | zero =>
    intro fuel h hf hl
    obtain ⟨f, rfl⟩ : ∃ f, fuel = f + 1 := ⟨fuel - 1, by omega⟩
    obtain ⟨e, he, hp⟩ := hl lo (le_refl _) (by omega)
    have h0 : lo ≠ 0 := by omega
    refine ⟨upd h lo none, by simp [free_loop, h0, he, hp, free_loop_null], ?_⟩
    intro a
    by_cases ha : a = lo
    · subst ha
      simp [upd]
    · have : ¬ (lo ≤ a ∧ a ≤ lo) := by omega
      simp [upd, ha, this]
  | succ n ih =>
    intro fuel h hf hl
    obtain ⟨f, rfl⟩ : ∃ f, fuel = f + 1 := ⟨fuel - 1, by omega⟩
    obtain ⟨e, he, hp⟩ := hl (lo + (n + 1)) (by omega) (le_refl _)
    have h0 : lo + (n + 1) ≠ 0 := by omega
    have h1 : lo + (n + 1) ≠ lo := by omega
    rw [if_neg h1] at hp
    have h2 : lo + (n + 1) - 1 = lo + n := by omega
    rw [h2] at hp
    obtain ⟨h1', hfl, hall⟩ := ih f (upd h (lo + (n + 1)) none) (by omega) (by
      intro a ha1 ha2
      have ha3 : a ≠ lo + (n + 1) := by omega
      simpa [upd, ha3] using hl a ha1 (by omega))
    refine ⟨h1', by simp [free_loop, h0, he, hp, hfl], ?_⟩
    intro a
    rw [hall a]
    by_cases ha : a = lo + (n + 1)
    · subst ha
      have : ¬ (lo ≤ lo + (n + 1) ∧ lo + (n + 1) ≤ lo + n) := by omega
      simp [upd, this]
    · by_cases hb : lo ≤ a ∧ a ≤ lo + n
      · have : lo ≤ a ∧ a ≤ lo + (n + 1) := by omega
        simp [hb, this]
      · have : ¬ (lo ≤ a ∧ a ≤ lo + (n + 1)) := by omega
        simp [hb, this, upd, ha]

/-- The clear command on a state of the invariant shape: it succeeds, frees every block, nulls
both links, and leaves the counter as it was. -/
theorem chat_ioctl_clear_inv {s : State} {lo : Nat} (hI : Inv s lo) (D : Nat) :
    ∃ s1, chat_ioctl D s D = some (s1, 0) ∧ Inv s1 s.brk ∧ s1.brk = s.brk
      ∧ s1.chatmsgs_head = 0 ∧ s1.chatmsgs_tail = 0 ∧ s1.chatmsgs_len = s.chatmsgs_len := by
  have hlo := hI.lo_pos
  have hle := hI.lo_le
  have hfree : ∃ h1, free_loop s.brk s.chatmsgs_head s.heap = some h1 ∧ ∀ a, h1 a = none := by
    rw [hI.head]
    by_cases hlt : lo < s.brk
    · rw [if_pos hlt]
      have h1 : s.brk - 1 = lo + (s.brk - 1 - lo) := by omega
      rw [h1]
      obtain ⟨h1', hfl, hall⟩ := free_loop_range lo hlo (s.brk - 1 - lo) s.brk s.heap (by omega)
        (by
          intro a ha1 ha2
          obtain ⟨e, he⟩ := inv_alive hI a ha1 (by omega)
          exact ⟨e, he, hI.prev a e he⟩)
      refine ⟨h1', hfl, ?_⟩
      intro a
      rw [hall a]
      by_cases ha : lo ≤ a ∧ a ≤ lo + (s.brk - 1 - lo)
      · simp [ha]
      · simp only [ha, if_false]
        exact inv_dead hI a (by omega)
    · rw [if_neg hlt, free_loop_null]
      exact ⟨s.heap, rfl, fun a => inv_dead hI a (by omega)⟩
  obtain ⟨h1, hfl, hall⟩ := hfree
  refine ⟨{ s with heap := h1, chatmsgs_head := 0, chatmsgs_tail := 0 }, ?_, ?_, rfl, rfl, rfl,
    rfl⟩
  · simp [chat_ioctl, hfl]
  · refine ⟨by simpa using (by omega : 1 ≤ s.brk), le_refl _, ?_, ?_, ?_, ?_, ?_⟩
    · intro a
      simp [hall a]
    · simp
    · simp
    · intro a e he
      simp [hall a] at he
    · intro a e he
      simp [hall a] at he

/-! ## Reachable states -/

/-- `chat_read` never changes the module state. -/
theorem chat_read_state (s : State) (u : uio) (r : Ret) (h : chat_read s u = some r) :
    r.state = s := by
  simp only [chat_read] at h
  split at h
  · cases h
    rfl
  · split at h
    · exact absurd h (by simp)
    · split at h
      · exact absurd h (by simp)
      · cases h
        rfl

/-- A defined `chat_write` keeps the invariant shape. -/
theorem chat_write_inv {s : State} {lo : Nat} (hI : Inv s lo) (u : uio) (g : s_chat) (r : Ret)
    (h : chat_write s u g = some r) : ∃ lo1, Inv r.state lo1 := by
  simp only [chat_write] at h
  split at h
  · cases h
    exact ⟨lo, hI⟩
  · split at h
    · exact absurd h (by simp)
    · rename_i e u1 error hfill
      by_cases hok : maintenance_ok s lo error
      · obtain ⟨s1, hlm, hInv, _⟩ := list_maintenance_ok hI e error hok
        rw [hlm] at h
        cases h
        exact ⟨_, hInv⟩
      · rw [list_maintenance_crash hI e error hok] at h
        exact absurd h (by simp)

/-- Every reachable state has the invariant shape. -/
theorem reachable_inv (D : Nat) (s : State) (hR : Reachable D s) : ∃ lo, Inv s lo := by
  induction hR with
  | init => exact ⟨1, inv_init⟩
  | write s u g r _ hw ih =>
    obtain ⟨lo, hI⟩ := ih
    exact chat_write_inv hI u g r hw
  | read s u r _ hr ih =>
    rw [chat_read_state s u r hr]
    exact ih
  | ioctl s cmd s1 err _ hc ih =>
    obtain ⟨lo, hI⟩ := ih
    by_cases hcmd : cmd = D
    · subst hcmd
      obtain ⟨s2, hcl, hInv, _⟩ := chat_ioctl_clear_inv hI cmd
      rw [hcl] at hc
      cases hc
      exact ⟨_, hInv⟩
    · simp [chat_ioctl, hcmd] at hc
      obtain ⟨rfl, _⟩ := hc
      exact ⟨lo, hI⟩

/-! ## Appending -/

/-- After a step that allocates `brk`, keeps `msg` and `len` of the entries from `lo1` on, the log
is the old one from `lo1` on followed by the new entry. -/
theorem log_by_snoc (F : s_chat → List Nat)
    (hF : ∀ x x1 : s_chat, x1.msg = x.msg → x1.len = x.len → F x1 = F x)
    (s s1 : State) (lo1 : Nat) (e e1 : s_chat) (hbrk : s1.brk = s.brk + 1) (hle : lo1 ≤ s.brk)
    (hnew : s1.heap s.brk = some e1) (hm : e1.msg = e.msg) (hl : e1.len = e.len)
    (hold : ∀ a x, lo1 ≤ a → a < s.brk → s.heap a = some x →
        ∃ x1, s1.heap a = some x1 ∧ x1.msg = x.msg ∧ x1.len = x.len)
    (hlive : ∀ a, lo1 ≤ a → a < s.brk → ∃ x, s.heap a = some x) :
    log_by F s1 lo1 = log_by F s lo1 ++ [F e] := by
  have h1 : s1.brk - lo1 = (s.brk - lo1) + 1 := by omega
  have h2 : lo1 + (s.brk - lo1) = s.brk := by omega
  simp only [log_by, h1, List.range'_1_concat, List.map_append, List.map_cons, List.map_nil, h2,
    hnew, hF e e1 hm hl]
  congr 1
  apply List.map_congr_left
  intro a ha
  rw [List.mem_range'_1] at ha
  obtain ⟨x, hx⟩ := hlive a ha.1 (by omega)
  obtain ⟨x1, hx1, hm1, hl1⟩ := hold a x ha.1 (by omega) hx
  simp only [hx, hx1]
  exact hF x x1 hm1 hl1

theorem content_congr (x x1 : s_chat) (hm : x1.msg = x.msg) (hl : x1.len = x.len) :
    content x1 = content x := by
  simp [content, hm, hl]

theorem chunk_congr (x x1 : s_chat) (hm : x1.msg = x.msg) (_hl : x1.len = x.len) :
    chunk x1.msg = chunk x.msg := by
  rw [hm]

theorem map_getD_range (m : List Nat) : ∀ n, n ≤ m.length →
    (List.range n).map (fun j => m.getD j 0) = m.take n := by
  intro n hn
  apply List.ext_getElem
  · simp [hn]
  · intro i h1 h2
    simp at h1 h2
    simp [List.getD_eq_getElem?_getD, List.getElem?_eq_getElem (by omega : i < m.length)]

/-- What `chat_write` stores in a fresh block whose `len` field reads `0`, when the copy
succeeds: the first `min(n, 255)` bytes of the input and a terminator. -/
theorem fill_entry_ok (m : List Nat) (g : s_chat) (hg : g.len = 0) :
    ∃ e u1, fill_entry (write_req m 0 false) g = some (e, u1, 0)
      ∧ e.len = (min m.length 255 : Nat) ∧ content e = m.take 255 ∧ e.next_msg = g.next_msg
      ∧ e.msg (min m.length 255) = 0 ∧ ∀ j, j < min m.length 255 → e.msg j = m.getD j 0 := by
  have hamt : to_int (to_size_t (MIN (m.length : Int) 255)) = ((min m.length 255 : Nat) : Int) := by
    unfold to_int to_size_t MIN SIZE_MOD
    split_ifs with h
    · have : min m.length 255 = m.length := by omega
      rw [this]
      omega
    · have : min m.length 255 = 255 := by omega
      rw [this]
      omega
  have hcnt : min (min m.length 255) m.length = min m.length 255 := by omega
  have hle : ¬ (min m.length 255 > 255 + 1) := by omega
  refine ⟨{ g with msg := upd (fun j => if j < min m.length 255 then m.getD j 0 else g.msg j)
                            (min m.length 255) 0,
                   len := (min m.length 255 : Nat) },
    { uio_offset := (min m.length 255 : Nat), uio_resid := (m.length : Int) - (min m.length 255 : Nat),
      iov := m.drop (min m.length 255), fault := false }, ?_, rfl, ?_, rfl, ?_, ?_⟩
  · have h3 : ¬ ((255 : Int) < (min m.length 255 : Nat)) := by omega
    have h4 : ((m.length : Int) ⊓ 255).toNat = m.length ⊓ 255 := by omega
    simp [fill_entry, write_req, hg, BUFFERSIZE, INT_MAX, hamt, hcnt, uiomove_in, h3, h4]
  · simp only [content, Int.toNat_ofNat]
    have : (List.range (min m.length 255)).map
        (upd (fun j => if j < min m.length 255 then m.getD j 0 else g.msg j) (min m.length 255) 0)
        = (List.range (min m.length 255)).map (fun j => m.getD j 0) := by
      apply List.map_congr_left
      intro j hj
      rw [List.mem_range] at hj
      have : j ≠ min m.length 255 := by omega
      simp [upd, this, hj]
    rw [this, map_getD_range m _ (by omega)]
    by_cases h : m.length ≤ 255
    · rw [min_eq_left h, List.take_of_length_le (le_refl _), List.take_of_length_le h]
    · rw [min_eq_right (by omega)]
  · simp [upd]
  · intro j hj
    have : j ≠ min m.length 255 := by omega
    simp [upd, this, hj]

/-- The inner loop of `chat_read` recovers a stored message that has no zero byte and is followed
by its terminator. -/
theorem chunk_of_terminated (msg : Nat → Nat) (m : List Nat) (hlen : m.length ≤ 255)
    (hnz : ∀ x ∈ m, x ≠ 0) (hm : ∀ j, j < m.length → msg j = m.getD j 0)
    (h0 : msg m.length = 0) : chunk msg = m := by
  have h1 : BUFFERSIZE = m.length + (255 - m.length) := by
    simp only [BUFFERSIZE]
    omega
  have h2 : (List.range m.length).map msg = m := by
    have : (List.range m.length).map msg = (List.range m.length).map (fun j => m.getD j 0) := by
      apply List.map_congr_left
      intro j hj
      rw [List.mem_range] at hj
      exact hm j hj
    rw [this, map_getD_range m _ (le_refl _), List.take_of_length_le (le_refl _)]
  unfold chunk
  rw [h1, List.range_add, List.map_append, h2,
    List.takeWhile_append_of_pos (by
      intro a ha
      simpa using hnz a ha)]
  cases hk : 255 - m.length with
  | zero => simp
  | succ k => simp [List.range_succ_eq_map, h0]

/-- A successful append below the capacity check: the write succeeds, nothing is evicted, the
counter stays, and the new entry holds the first `min(n, 255)` bytes of the input. -/
theorem chat_write_append {s : State} {lo : Nat} (hI : Inv s lo)
    (hlen : s.chatmsgs_len < (LOGLEN : Int)) (m : List Nat) (g : s_chat) (hg : g.len = 0) :
    ∃ (r : Ret) (e : s_chat), chat_write s (write_req m 0 false) g = some r ∧ r.error = 0
      ∧ Inv r.state lo
      ∧ r.state.chatmsgs_len = s.chatmsgs_len ∧ r.state.brk = s.brk + 1
      ∧ (∃ e1, r.state.heap s.brk = some e1 ∧ e1.msg = e.msg ∧ e1.len = e.len
            ∧ e1.next_msg = g.next_msg)
      ∧ e.len = ((min m.length 255 : Nat) : Int) ∧ content e = m.take 255
      ∧ e.msg (min m.length 255) = 0 ∧ (∀ j, j < min m.length 255 → e.msg j = m.getD j 0)
      ∧ (∀ F : s_chat → List Nat,
            (∀ x x1 : s_chat, x1.msg = x.msg → x1.len = x.len → F x1 = F x) →
            log_by F r.state lo = log_by F s lo ++ [F e]) := by
  obtain ⟨e, u1, hfill, hl, hc, hn, hz, hb⟩ := fill_entry_ok m g hg
  have hok : maintenance_ok s lo 0 := ⟨Or.inl hlen, Or.inl rfl⟩
  obtain ⟨s1, hlm, hInv, hbrk, hcnt, ⟨e1, he1, hm1, hl1, hn1⟩, hold⟩ :=
    list_maintenance_ok hI e 0 hok
  have hge : ¬ s.chatmsgs_len ≥ (LOGLEN : Int) := by omega
  rw [if_neg hge] at hInv hold
  refine ⟨⟨s1, u1, 0⟩, e, ?_, rfl, hInv, by simpa using hcnt, hbrk,
    ⟨e1, he1, hm1, hl1, by rw [hn1, hn]⟩, hl, hc, hz, hb, ?_⟩
  · simp [chat_write, write_req, hlm]
    simp [write_req] at hfill
    simp [hfill, hlm]
  · intro F hF
    exact log_by_snoc F hF s s1 lo e e1 hbrk hI.lo_le he1 hm1 hl1 hold
      (fun a ha1 ha2 => inv_alive hI a ha1 ha2)

theorem clean_init : Clean init := by
  intro e he
  simp [init] at he

theorem appends_cons (s : State) (m : List Nat) (ms : List (List Nat)) :
    appends s (m :: ms) = (chat_write s (write_req m 0 false) zeroed).bind
      (fun r => appends r.state ms) := rfl

/-- A run of successful appends below the capacity check: every write succeeds, nothing is
evicted, the counter never moves, and the log grows by one entry per message. -/
theorem appends_ok (ms : List (List Nat)) :
    ∀ (s : State) (lo : Nat), Inv s lo → s.chatmsgs_len < (LOGLEN : Int) →
      ∃ s1, appends s ms = some s1 ∧ Inv s1 lo ∧ s1.chatmsgs_len = s.chatmsgs_len
        ∧ s1.brk = s.brk + ms.length
        ∧ log_of s1 lo = log_of s lo ++ ms.map (List.take 255)
        ∧ (Clean s → Clean s1)
        ∧ ((∀ m ∈ ms, m.length ≤ 255 ∧ ∀ x ∈ m, x ≠ 0) →
            log_by (fun e => chunk e.msg) s1 lo = log_by (fun e => chunk e.msg) s lo ++ ms) := by
  induction ms with
  | nil =>
    intro s lo hI _
    exact ⟨s, rfl, hI, rfl, rfl, by simp, fun h => h, fun _ => by simp⟩
  | cons m ms ih =>
    intro s lo hI hlen
    obtain ⟨r, e, hw, _, hInv, hcnt, hbrk, ⟨e1, he1, _, _, hn1⟩, hl, hc, hz, hb, hlog⟩ :=
      chat_write_append hI hlen m zeroed rfl
    obtain ⟨s1, happ, hInv1, hcnt1, hbrk1, hlog1, hclean1, hchunk1⟩ :=
      ih r.state lo hInv (by rw [hcnt]; exact hlen)
    have hcl : Clean r.state := by
      intro x hx
      have : r.state.brk - 1 = s.brk := by omega
      rw [this, he1] at hx
      cases hx
      rw [hn1]
      rfl
    refine ⟨s1, by rw [appends_cons, hw]; exact happ, hInv1, by rw [hcnt1, hcnt], ?_, ?_,
      fun _ => hclean1 hcl, ?_⟩
    · rw [hbrk1, hbrk, List.length_cons]
      omega
    · rw [hlog1]
      simp only [log_of]
      rw [hlog content content_congr, hc]
      simp
    · intro hall
      rw [hchunk1 (fun x hx => hall x (List.mem_cons_of_mem _ hx)),
        hlog (fun e => chunk e.msg) chunk_congr]
      obtain ⟨hm1, hm2⟩ := hall m (List.mem_cons_self _ _)
      have hmin : min m.length 255 = m.length := by omega
      rw [hmin] at hz hb
      rw [chunk_of_terminated e.msg m hm1 hm2 hb hz]
      simp

theorem read_loop_null (h : Nat → Option s_chat) (fuel : Nat) (acc : List Nat) :
    read_loop h fuel 0 acc = some acc := by
  cases fuel <;> simp [read_loop]

/-- On a heap of the invariant shape whose head has a null `next_msg`, the walk of `chat_read`
from `lo` appends the chunks of `lo, ..., brk - 1` in that order, as long as they fit the
buffer. -/
theorem read_loop_range (h : Nat → Option s_chat) (brk : Nat)
    (hnext : ∀ a e, h a = some e → a + 1 < brk → e.next_msg = a + 1)
    (hlast : ∀ e, h (brk - 1) = some e → e.next_msg = 0) :
    ∀ n lo fuel acc, lo + n = brk → 1 ≤ lo → n ≤ fuel →
      (∀ a, lo ≤ a → a < brk → ∃ e, h a = some e) →
      (acc ++ ((List.range' lo n).map (fun a => match h a with
                                                | none => []
                                                | some e => chunk e.msg)).flatten).length
        ≤ LOGLEN * BUFFERSIZE + 1 →
      read_loop h fuel (if n = 0 then 0 else lo) acc
        = some (acc ++ ((List.range' lo n).map (fun a => match h a with
                                                          | none => []
                                                          | some e => chunk e.msg)).flatten) := by
  intro n
  induction n with
  | zero =>
    intro lo fuel acc _ _ _ _ _
    simp [read_loop_null]
  | succ n ih =>
    intro lo fuel acc hbrk hlo hf hl hfit
    obtain ⟨f, rfl⟩ : ∃ f, fuel = f + 1 := ⟨fuel - 1, by omega⟩
    obtain ⟨e, he⟩ := hl lo (le_refl _) (by omega)
    have h0 : lo ≠ 0 := by omega
    have hnx : e.next_msg = if n = 0 then 0 else lo + 1 := by
      by_cases hn : n = 0
      · subst hn
        have : brk - 1 = lo := by omega
        rw [if_pos rfl]
        exact hlast e (by rw [this]; exact he)
      · rw [if_neg hn]
        exact hnext lo e he (by omega)
    simp only [List.range'_succ, List.map_cons, he, List.flatten_cons] at hfit ⊢
    rw [← List.append_assoc] at hfit ⊢
    have hfit1 : ¬ (acc ++ chunk e.msg).length > LOGLEN * BUFFERSIZE + 1 := by
      simp only [List.length_append] at hfit ⊢
      omega
    have ih2 := ih (lo + 1) f (acc ++ chunk e.msg) (by omega) (by omega) (by omega)
      (fun a ha1 ha2 => hl a (by omega) ha2) hfit
    simp only [Nat.succ_ne_zero, if_false, read_loop, h0, he, hfit1, hnx]
    exact ih2

/-- Total length of at most `k` messages of at most 255 bytes. -/
theorem flatten_length_le (ms : List (List Nat)) (h : ∀ m ∈ ms, m.length ≤ 255) :
    ms.flatten.length ≤ 255 * ms.length := by
  induction ms with
  | nil => simp
  | cons m ms ih =>
    have h1 := h m (List.mem_cons_self _ _)
    have h2 := ih (fun x hx => h x (List.mem_cons_of_mem _ hx))
    simp only [List.flatten_cons, List.length_append, List.length_cons]
    omega

/-- The consolidated content of a state of the invariant shape whose head has a null
`next_msg`: the chunks of the entries, oldest first, when they fit the buffer. -/
theorem consolidate_inv {s : State} {lo : Nat} (hI : Inv s lo) (hc : Clean s)
    (hfit : (log_by (fun e => chunk e.msg) s lo).flatten.length ≤ LOGLEN * BUFFERSIZE) :
    consolidate s = some (log_by (fun e => chunk e.msg) s lo).flatten := by
  have hlo := hI.lo_pos
  have hle := hI.lo_le
  have h1 := read_loop_range s.heap s.brk hI.next hc (s.brk - lo) lo s.brk [] (by omega) hlo
    (by omega) (fun a ha1 ha2 => inv_alive hI a ha1 ha2) (by
      simp only [List.nil_append]
      exact le_trans hfit (Nat.le_succ _))
  have h2 : (if s.brk - lo = 0 then 0 else lo) = s.chatmsgs_tail := by
    rw [hI.tail]
    split_ifs <;> omega
  rw [h2] at h1
  simp only [List.nil_append] at h1
  have h3 : ¬ (log_by (fun e => chunk e.msg) s lo).flatten.length > LOGLEN * BUFFERSIZE := by
    omega
  simp only [consolidate, h1]
  simp only [log_by] at h3 ⊢
  rw [if_neg h3]

/-! ## Reading -/

/-- With a non-negative offset the byte budget of `chat_read` never exceeds the `len + 1` bytes
that the loop has stored in `msgs`. -/
theorem read_amt_le (u : uio) (L : Nat) (hoff : 0 ≤ u.uio_offset) :
    min (to_int (read_amt u (L : Int))).toNat u.uio_resid.toNat ≤ L + 1 := by
  unfold to_int read_amt to_size_t MIN SIZE_MOD
  split_ifs <;> omega

/-- A budget below `2 ^ 31` is handed to `uiomove` unchanged. -/
theorem to_int_small (a : Nat) (h : a < 2147483648) : to_int a = (a : Int) := by
  unfold to_int
  omega

/-- The byte budget of a read request of `r` bytes at offset `o`. -/
theorem read_amt_req (o r L : Nat) (hL : L ≤ LOGLEN * BUFFERSIZE) :
    read_amt (read_req o r false) (L : Int) = if L + 1 ≤ o then 0 else min r (L + 1 - o) := by
  unfold read_amt to_size_t MIN SIZE_MOD read_req
  simp only [LOGLEN, BUFFERSIZE] at hL ⊢
  split_ifs <;> omega

/-- The byte budget of a read request on a completed walk fits an `int`. -/
theorem to_int_read_amt (o r L : Nat) (hL : L ≤ LOGLEN * BUFFERSIZE) :
    to_int (read_amt (read_req o r false) (L : Int))
      = ((read_amt (read_req o r false) (L : Int) : Nat) : Int) := by
  apply to_int_small
  rw [read_amt_req o r L hL]
  simp only [LOGLEN, BUFFERSIZE] at hL
  split_ifs <;> omega

/-- A completed walk of `chat_read` has stored at most `LOGLEN * BUFFERSIZE` bytes. -/
theorem consolidate_length (s : State) (c : List Nat) (hc : consolidate s = some c) :
    c.length ≤ LOGLEN * BUFFERSIZE := by
  simp only [consolidate] at hc
  split at hc
  · exact absurd hc (by simp)
  · split at hc
    · exact absurd hc (by simp)
    · cases hc
      omega

/-- On a non-empty log whose walk completes, a read at a non-negative offset returns what
`uiomove` returns and leaves the module state alone. -/
theorem chat_read_ok (s : State) (u : uio) (c : List Nat) (hne : s.chatmsgs_tail ≠ 0)
    (hc : consolidate s = some c) (hoff : 0 ≤ u.uio_offset) :
    chat_read s u = some ⟨s, (uiomove_out (c ++ [0]) (to_int (read_amt u c.length)) u).1,
      (uiomove_out (c ++ [0]) (to_int (read_amt u c.length)) u).2⟩ := by
  have h1 := read_amt_le u c.length hoff
  have h2 : ¬ (min (to_int (read_amt u (c.length : Int))).toNat u.uio_resid.toNat
      > (c ++ [0]).length) := by
    simp only [List.length_append, List.length_singleton]
    omega
  simp only [chat_read, hne, if_false, hc, h2]

/-- The error code of `uiomove` is `0` or `EFAULT`. -/
theorem uiomove_out_error (cp : List Nat) (n : Int) (u : uio) :
    (uiomove_out cp n u).2 = 0 ∨ (uiomove_out cp n u).2 = EFAULT := by
  unfold uiomove_out
  simp only
  split_ifs
  · exact Or.inr rfl
  · exact Or.inl rfl

theorem reachable_appends (D : Nat) (ms : List (List Nat)) :
    ∀ s, Reachable D s → Reachable D ((appends s ms).getD s) := by
  induction ms with
  | nil =>
    intro s hs
    exact hs
  | cons m ms ih =>
    intro s hs
    rw [appends_cons]
    cases hw : chat_write s (write_req m 0 false) zeroed with
    | none => exact hs
    | some r =>
      have h1 := ih r.state (Reachable.write s _ _ r hs hw)
      simp only [Option.bind]
      cases ha : appends r.state ms with
      | none => exact hs
      | some s1 =>
        rw [ha] at h1
        exact h1

theorem log_of_init : log_of init 1 = [] := by
  simp [log_of, log_by, init]

theorem distinct_messages_nodup : distinct_messages.Nodup := by
  unfold distinct_messages
  apply List.Nodup.map_on _ (List.nodup_range 256)
  intro a _ b _ hab
  simp only [List.cons.injEq, and_true] at hab
  omega

theorem distinct_messages_take : distinct_messages.map (List.take 255) = distinct_messages := by
  unfold distinct_messages
  simp [List.map_map, Function.comp_def]

/-- In a state of the invariant shape the log is empty exactly when the tail is `NULL`. -/
theorem entries_nil_iff {s : State} {lo : Nat} (hI : Inv s lo) :
    entries s = some [] ↔ s.chatmsgs_tail = 0 := by
  have hlo := hI.lo_pos
  rw [entries_inv hI, hI.tail]
  simp only [log_of, log_by, Option.some.injEq, List.map_eq_nil_iff, List.range'_eq_nil]
  split_ifs <;> omega

/-- Read ordering when every block is zero filled on allocation: at most 255 messages of at most
255 bytes without a zero byte, appended in order to the empty log, are consolidated oldest first
with no delimiter. -/
theorem read_ordering_zeroed (ms : List (List Nat)) (hk : ms.length ≤ 255)
    (hall : ∀ m ∈ ms, m.length ≤ 255 ∧ ∀ x ∈ m, x ≠ 0) :
    ∃ s, appends init ms = some s ∧ consolidate s = some ms.flatten := by
  obtain ⟨s, happ, hInv, _, _, _, hclean, hchunk⟩ := appends_ok ms init 1 inv_init (by decide)
  have h1 : log_by (fun e => chunk e.msg) s 1 = ms := by
    rw [hchunk hall]
    simp [log_by, init]
  have h2 := flatten_length_le ms (fun m hm => (hall m hm).1)
  refine ⟨s, happ, ?_⟩
  have h3 := consolidate_inv hInv (hclean clean_init) (by
    rw [h1]
    simp only [LOGLEN, BUFFERSIZE]
    omega)
  rw [h1] at h3
  exact h3

/-! ## The claims -/

/-- C1 (capacity invariant) fails on the code: 256 appends whose copy succeeds, starting from the
empty log, leave 256 entries linked into the log, one more than `LOGLEN = 255`; the counter
`chatmsgs_len` that guards the eviction is still `0`, because it is incremented only under
`if (error != 0)`. -/
theorem C1_capacity_exceeded :
    ∃ s l, appends init (List.replicate 256 [65]) = some s ∧ s.chatmsgs_len = 0
      ∧ entries s = some l ∧ l.length = 256 ∧ ¬ l.length ≤ LOGLEN := by
  obtain ⟨s, happ, hInv, hcnt, _, hlog, _, _⟩ :=
    appends_ok (List.replicate 256 [65]) init 1 inv_init (by decide)
  have hl : (log_of s 1).length = 256 := by
    rw [hlog, log_of_init]
    simp only [List.nil_append, List.length_map, List.length_replicate]
  refine ⟨s, log_of s 1, happ, hcnt, entries_inv hInv, hl, ?_⟩
  rw [hl]
  decide

/-- C2 (eviction order) fails on the code: after 256 distinct messages are appended to the empty
log with every copy succeeding, the log holds all 256 of them, the first message still at the
tail; nothing was evicted, so the log is not the last 255 messages. -/
theorem C2_nothing_evicted :
    ∃ s, appends init distinct_messages = some s ∧ distinct_messages.Nodup
      ∧ distinct_messages.length = 256 ∧ entries s = some distinct_messages
      ∧ entries s ≠ some distinct_messages.tail := by
  obtain ⟨s, happ, hInv, _, _, hlog, _, _⟩ :=
    appends_ok distinct_messages init 1 inv_init (by decide)
  have hlen : distinct_messages.length = 256 := by simp [distinct_messages]
  have hent : entries s = some distinct_messages := by
    rw [entries_inv hInv, hlog, log_of_init, distinct_messages_take]
    simp
  refine ⟨s, happ, distinct_messages_nodup, hlen, hent, ?_⟩
  rw [hent]
  intro h
  have h2 := congrArg (Option.map List.length) h
  simp [hlen] at h2

set_option maxRecDepth 100000 in
/-- C3 (truncation) fails on the code: `chat_write` computes the byte budget from the `len` field
of the block `malloc` has just returned, before setting it.  When that field reads `100`, a write
of 300 bytes at offset 0 with a successful copy stores an entry of 155 bytes, not 255. -/
theorem C3_uninitialised_len :
    (chat_write init (write_req (List.replicate 300 65) 0 false) { zeroed with len := 100 }).map
        (fun r => (r.error, entries r.state,
                   (r.state.heap 1).map (fun e => (e.len, e.msg 155))))
      = some (0, some [List.replicate 155 65], some (155, 0)) := by
  decide

/-- C4 (read ordering) fails on the code, which never initialises the fresh block: with a `len`
field that reads `254` the message `abc` is stored as `a`, and a read of 3 bytes returns `a`
and the terminator; with a `next_msg` field that reads non-null the walk of `chat_read` leaves
the log through the head and has no defined result. -/
theorem C4_uninitialised_block :
    ((chat_write init (write_req [97, 98, 99] 0 false) { zeroed with len := 254 }).bind
        (fun r => consolidate r.state)) = some [97]
    ∧ ((chat_write init (write_req [97, 98, 99] 0 false) { zeroed with len := 254 }).bind
        (fun r => chat_read r.state (read_req 0 3 false))).map (fun x => (x.error, x.io.iov))
      = some (0, [97, 0])
    ∧ ((chat_write init (write_req [97] 0 false) { zeroed with next_msg := 3735929054 }).bind
        (fun r => consolidate r.state)) = none
    ∧ ((chat_write init (write_req [97] 0 false) { zeroed with next_msg := 3735929054 }).bind
        (fun r => chat_read r.state (read_req 0 1 false))).map (fun x => (x.error, x.io.iov))
      = none := by
  decide

/-- C5 as stated is false: the three bytes `65 0 66` appended to the empty log (into a zero filled
block) and read back from offset 0 with a request of 3 bytes come back as `65 0`: the walk of
`chat_read` stops at the first zero byte of a message. -/
theorem C5_zero_byte_lost :
    ((chat_write init (write_req [65, 0, 66] 0 false) zeroed).bind
        (fun r => chat_read r.state (read_req 0 3 false))).map (fun x => (x.error, x.io.iov))
      = some (0, [65, 0])
    ∧ ([65, 0] : List Nat) ≠ [65, 0, 66] := by
  decide

/-- C5, amended: every byte sequence `b` of at most 255 bytes that contains no zero byte (the
empty sequence included), appended to the empty log into a block whose `len` and `next_msg`
fields read zero, and then read from offset 0 with a request of exactly `|b|` bytes, comes back
as exactly `b`; both calls return `0`. -/
theorem C5_round_trip (b : List Nat) (g : s_chat) (hlen : b.length ≤ 255)
    (hnz : ∀ x ∈ b, x ≠ 0) (hg : g.len = 0) (hn : g.next_msg = 0) :
    ∃ r1 r2, chat_write init (write_req b 0 false) g = some r1 ∧ r1.error = 0
      ∧ chat_read r1.state (read_req 0 b.length false) = some r2 ∧ r2.error = 0
      ∧ r2.io.iov = b ∧ r2.state = r1.state := by
  obtain ⟨r1, e, hw, herr, hInv, _, hbrk, ⟨e1, he1, _, _, hn1⟩, _, _, hz, hb, hlog⟩ :=
    chat_write_append inv_init (by decide) b g hg
  have hmin : min b.length 255 = b.length := by omega
  rw [hmin] at hz hb
  have hchunk : log_by (fun e => chunk e.msg) r1.state 1 = [b] := by
    rw [hlog (fun e => chunk e.msg) chunk_congr, chunk_of_terminated e.msg b hlen hnz hb hz]
    simp [log_by, init]
  have hclean : Clean r1.state := by
    intro x hx
    have : r1.state.brk - 1 = init.brk := by omega
    rw [this, he1] at hx
    cases hx
    rw [hn1, hn]
  have hc : consolidate r1.state = some b := by
    have h3 := consolidate_inv hInv hclean (by
      rw [hchunk]
      simp only [LOGLEN, BUFFERSIZE, List.flatten_cons, List.flatten_nil, List.append_nil]
      omega)
    rw [hchunk] at h3
    simpa using h3
  have htail : r1.state.chatmsgs_tail ≠ 0 := by
    rw [hInv.tail, hbrk]
    simp [init]
  have hrd := chat_read_ok r1.state (read_req 0 b.length false) b htail hc (le_refl _)
  have hamt := read_amt_req 0 b.length b.length (consolidate_length _ _ hc)
  have hti := to_int_read_amt 0 b.length b.length (consolidate_length _ _ hc)
  simp only [Nat.cast_zero] at hamt hti
  refine ⟨r1, _, hw, herr, hrd, ?_, ?_, rfl⟩
  · simp only [uiomove_out, read_req, Bool.false_eq_true, false_and, if_false]
  · rw [hti, hamt]
    simp [uiomove_out, read_req]

/-- C5, amended, at the bytes `104 105` and a zero filled block. -/
theorem C5_round_trip_witness :
    ([104, 105] : List Nat).length ≤ 255 ∧ (∀ x ∈ ([104, 105] : List Nat), x ≠ 0)
      ∧ zeroed.len = 0 ∧ zeroed.next_msg = 0
      ∧ ∃ r1 r2, chat_write init (write_req [104, 105] 0 false) zeroed = some r1 ∧ r1.error = 0
          ∧ chat_read r1.state (read_req 0 ([104, 105] : List Nat).length false) = some r2
          ∧ r2.error = 0 ∧ r2.io.iov = [104, 105] ∧ r2.state = r1.state :=
  ⟨by decide, by decide, rfl, rfl, C5_round_trip [104, 105] zeroed (by decide) (by decide) rfl rfl⟩

/-- C6 as stated is false: on the log holding the single message `abc` (content length 3), a read
of 4 bytes at offset 0 transfers 4 bytes, the content and its terminator, not the 3 bytes of the
content; a read of 1 byte at offset 3 transfers one byte, not none. -/
theorem C6_terminator_in_budget :
    (appends init [[97, 98, 99]]).bind consolidate = some [97, 98, 99]
    ∧ ((appends init [[97, 98, 99]]).bind (fun s => chat_read s (read_req 0 4 false))).map
        (fun x => (x.error, x.io.iov)) = some (0, [97, 98, 99, 0])
    ∧ ([97, 98, 99, 0] : List Nat) ≠ (([97, 98, 99] : List Nat).drop 0).take (min (0 + 4) 3 - 0)
    ∧ ((appends init [[97, 98, 99]]).bind (fun s => chat_read s (read_req 3 1 false))).map
        (fun x => (x.io.iov.length)) = some 1 := by
  decide

/-- C6, amended: on every non-empty log whose walk completes with content `c` of length `L`, for
every requested length `r`, a read at offset 0 whose copy succeeds returns `0`, leaves the log
alone and transfers the first `min(r, L + 1)` bytes of `c` followed by a zero byte; a read at any
offset `o >= L + 1` returns `0` and transfers no byte. -/
theorem C6_partial_read (s : State) (c : List Nat) (r : Nat) (hne : s.chatmsgs_tail ≠ 0)
    (hc : consolidate s = some c) :
    (∃ x, chat_read s (read_req 0 r false) = some x ∧ x.state = s ∧ x.error = 0
        ∧ x.io.iov = (c ++ [0]).take (min r (c.length + 1)))
    ∧ ∀ o : Nat, c.length + 1 ≤ o →
        ∃ x, chat_read s (read_req o r false) = some x ∧ x.state = s ∧ x.error = 0
          ∧ x.io.iov = [] := by
  have hL := consolidate_length s c hc
  constructor
  · have hrd := chat_read_ok s (read_req 0 r false) c hne hc (le_refl _)
    have hamt := read_amt_req 0 r c.length hL
    have hti := to_int_read_amt 0 r c.length hL
    simp only [Nat.cast_zero] at hamt hti
    refine ⟨_, hrd, rfl, ?_, ?_⟩
    · simp only [uiomove_out, read_req, Bool.false_eq_true, false_and, if_false]
    · rw [hti, hamt]
      simp only [uiomove_out, read_req, Bool.false_eq_true, false_and, if_false,
        List.nil_append, Int.toNat_ofNat]
      have h1 : ¬ (c.length + 1 ≤ 0) := by omega
      rw [if_neg h1, Nat.sub_zero]
      have h2 : min (min r (c.length + 1)) r = min r (c.length + 1) := by omega
      rw [h2]
  · intro o ho
    have hrd := chat_read_ok s (read_req o r false) c hne hc (by simp [read_req])
    have hamt := read_amt_req o r c.length hL
    have hti := to_int_read_amt o r c.length hL
    rw [if_pos ho] at hamt
    refine ⟨_, hrd, rfl, ?_, ?_⟩
    · simp only [uiomove_out, read_req, Bool.false_eq_true, false_and, if_false]
    · rw [hti, hamt]
      simp [uiomove_out, read_req]

/-- C6, amended, on the log that holds the single message `abc`, for a request of 2 bytes. -/
theorem C6_partial_read_witness :
    ((appends init [[97, 98, 99]]).getD init).chatmsgs_tail ≠ 0
    ∧ consolidate ((appends init [[97, 98, 99]]).getD init) = some [97, 98, 99]
    ∧ (∃ x, chat_read ((appends init [[97, 98, 99]]).getD init) (read_req 0 2 false) = some x
        ∧ x.state = (appends init [[97, 98, 99]]).getD init ∧ x.error = 0
        ∧ x.io.iov = ([97, 98, 99] ++ [0]).take (min 2 (([97, 98, 99] : List Nat).length + 1)))
    ∧ ∀ o : Nat, ([97, 98, 99] : List Nat).length + 1 ≤ o →
        ∃ x, chat_read ((appends init [[97, 98, 99]]).getD init) (read_req o 2 false) = some x
          ∧ x.state = (appends init [[97, 98, 99]]).getD init ∧ x.error = 0 ∧ x.io.iov = [] :=
  ⟨by decide, by decide,
    C6_partial_read ((appends init [[97, 98, 99]]).getD init) [97, 98, 99] 2 (by decide)
      (by decide)⟩

/-- C7 (clear resets the count) fails on the code: after one append whose copy fails, the clear
command returns `0` and nulls both links, but `chatmsgs_len` is still `1`; `chat_ioctl` never
assigns the counter. -/
theorem C7_clear_keeps_counter :
    ((chat_write init (write_req [65] 0 true) zeroed).bind
        (fun r => chat_ioctl 1 r.state 1)).map
          (fun p => (p.2, p.1.chatmsgs_head, p.1.chatmsgs_tail, p.1.chatmsgs_len))
      = some (0, 0, 0, 1) := by
  decide

/-- C8: in every reachable state the clear command succeeds, and a read issued right after it
returns `ENOMSG` and transfers nothing (the `uio` is untouched). -/
theorem C8_read_after_clear (D : Nat) (s : State) (hR : Reachable D s) (u : uio) :
    ∃ s1, chat_ioctl D s D = some (s1, 0) ∧ chat_read s1 u = some ⟨s1, u, ENOMSG⟩ := by
  obtain ⟨lo, hI⟩ := reachable_inv D s hR
  obtain ⟨s1, hcl, _, _, _, htail, _⟩ := chat_ioctl_clear_inv hI D
  exact ⟨s1, hcl, by simp [chat_read, htail]⟩

/-- C8 on the scenario of the specification: append `hello`, append `world`, clear, read. -/
theorem C8_read_after_clear_witness :
    Reachable 1 ((appends init [[104, 101, 108, 108, 111], [119, 111, 114, 108, 100]]).getD init)
    ∧ ∃ s1, chat_ioctl 1
          ((appends init [[104, 101, 108, 108, 111], [119, 111, 114, 108, 100]]).getD init) 1
          = some (s1, 0)
        ∧ chat_read s1 (read_req 0 100 false) = some ⟨s1, read_req 0 100 false, ENOMSG⟩ :=
  ⟨reachable_appends 1 _ init Reachable.init,
    C8_read_after_clear 1 _ (reachable_appends 1 _ init Reachable.init) (read_req 0 100 false)⟩

/-- In every reachable state, a read of a log that holds no entry returns `ENOMSG`; a read that
returns does so with `ENOMSG` exactly when the log holds no entry; and on a log that holds an
entry, once the walk completes, a read at a non-negative offset returns, with the error code of
the byte copy. -/
theorem read_enomsg_iff_empty (D : Nat) (s : State) (hR : Reachable D s) (u : uio) :
    (entries s = some [] → chat_read s u = some ⟨s, u, ENOMSG⟩)
    ∧ (∀ r, chat_read s u = some r → (r.error = ENOMSG ↔ entries s = some []))
    ∧ (entries s ≠ some [] → ∀ c, consolidate s = some c → 0 ≤ u.uio_offset →
        chat_read s u = some ⟨s, (uiomove_out (c ++ [0]) (to_int (read_amt u c.length)) u).1,
          (uiomove_out (c ++ [0]) (to_int (read_amt u c.length)) u).2⟩) := by
  obtain ⟨lo, hI⟩ := reachable_inv D s hR
  have hiff := entries_nil_iff hI
  refine ⟨?_, ?_, ?_⟩
  · intro h
    simp [chat_read, hiff.1 h]
  · intro r hr
    by_cases ht : s.chatmsgs_tail = 0
    · simp only [chat_read, ht, if_true] at hr
      cases hr
      simp [hiff, ht]
    · simp only [chat_read, ht, if_false] at hr
      split at hr
      · exact absurd hr (by simp)
      · split at hr
        · exact absurd hr (by simp)
        · cases hr
          rename_i c _ _
          have h1 := uiomove_out_error (c ++ [0]) (to_int (read_amt u c.length)) u
          constructor
          · intro h2
            simp only at h2
            rw [h2] at h1
            rcases h1 with h1 | h1
            · exact absurd h1 (by decide)
            · exact absurd h1 (by decide)
          · intro h2
            exact absurd (hiff.1 h2) ht
  · intro hne c hc hoff
    exact chat_read_ok s u c (fun h => hne (hiff.2 h)) hc hoff

/-- The walk of `chat_read` only ever adds bytes to `msgs`. -/
theorem read_loop_mono (h : Nat → Option s_chat) :
    ∀ fuel p acc c, read_loop h fuel p acc = some c → acc.length ≤ c.length := by
  intro fuel
  induction fuel with
  | zero =>
    intro p acc c hc
    simp only [read_loop] at hc
    split at hc
    · cases hc
      exact le_refl _
    · exact absurd hc (by simp)
  | succ f ih =>
    intro p acc c hc
    simp only [read_loop] at hc
    split at hc
    · cases hc
      exact le_refl _
    · split at hc
      · exact absurd hc (by simp)
      · split at hc
        · exact absurd hc (by simp)
        · have := ih _ _ _ hc
          simp only [List.length_append] at this
          omega

/-- A walk of `chat_read` that completes from `lo` has stored at least the chunks of the entries
`lo, ..., brk - 1`. -/
theorem read_loop_lower (h : Nat → Option s_chat) (brk : Nat)
    (hnext : ∀ a e, h a = some e → a + 1 < brk → e.next_msg = a + 1) :
    ∀ n lo fuel acc c, lo + n = brk → 1 ≤ lo →
      read_loop h fuel (if n = 0 then 0 else lo) acc = some c →
      (acc ++ ((List.range' lo n).map (fun a => match h a with
                                                | none => []
                                                | some e => chunk e.msg)).flatten).length
        ≤ c.length := by
  intro n
  induction n with
  | zero =>
    intro lo fuel acc c _ _ hc
    simpa using read_loop_mono h fuel _ acc c hc
  | succ n ih =>
    intro lo fuel acc c hbrk hlo hc
    have h0 : lo ≠ 0 := by omega
    simp only [Nat.succ_ne_zero, if_false] at hc
    cases fuel with
    | zero => simp [read_loop, h0] at hc
    | succ f =>
      simp only [read_loop, h0, if_false] at hc
      split at hc
      · exact absurd hc (by simp)
      · rename_i e he
        split at hc
        · exact absurd hc (by simp)
        · simp only [List.range'_succ, List.map_cons, he, List.flatten_cons]
          rw [← List.append_assoc]
          by_cases hn : n = 0
          · subst hn
            simpa using read_loop_mono h f _ _ c hc
          · have hnx : e.next_msg = lo + 1 := hnext lo e he (by omega)
            rw [hnx] at hc
            exact ih (lo + 1) f (acc ++ chunk e.msg) c (by omega) (by omega)
              (by rw [if_neg hn]; exact hc)

theorem flatten_replicate_length (n : Nat) (m : List Nat) :
    (List.replicate n m).flatten.length = n * m.length := by
  induction n with
  | zero => simp
  | succ n ih =>
    rw [List.replicate_succ, List.flatten_cons, List.length_append, ih]
    ring

/-- C9 (a read of a non-empty log returns the result of the byte copy) fails on the code.  After
256 appends of 255 bytes each, all copies succeeding and all blocks zero filled, the log holds 256
entries (see C1) and the loop of `chat_read` stores 65280 bytes into `msgs`, which has
`LOGLEN * BUFFERSIZE + 1 = 65026` slots: no read of that log has a defined outcome, so none
returns the result of the byte copy.  The same holds of a log with one entry of empty content
whose `next_msg` field was left non-null by `malloc` (see C18). -/
theorem C9_read_without_result :
    (∃ s l, appends init (List.replicate 256 (List.replicate 255 65)) = some s
      ∧ Reachable 1 s ∧ entries s = some l ∧ l.length = 256 ∧ s.chatmsgs_tail ≠ 0
      ∧ consolidate s = none ∧ ∀ u, chat_read s u = none)
    ∧ (chat_write init (write_req [] 0 false) { zeroed with next_msg := 3735929054 }).map
        (fun r => (r.error, entries r.state)) = some (0, some [[]])
    ∧ ((chat_write init (write_req [] 0 false) { zeroed with next_msg := 3735929054 }).bind
        (fun r => chat_read r.state (read_req 0 10 false))).map (fun x => x.error) = none := by
  refine ⟨?_, by decide, by decide⟩
  obtain ⟨s, happ, hInv, _, hbrk, hlog, _, hchunk⟩ :=
    appends_ok (List.replicate 256 (List.replicate 255 65)) init 1 inv_init (by decide)
  have hall : ∀ m ∈ List.replicate 256 (List.replicate 255 65),
      m.length ≤ 255 ∧ ∀ x ∈ m, x ≠ 0 := by
    intro m hm
    rw [List.eq_of_mem_replicate hm]
    refine ⟨by rw [List.length_replicate], ?_⟩
    intro x hx
    rw [List.eq_of_mem_replicate hx]
    decide
  have hch := hchunk hall
  have h0 : log_by (fun e => chunk e.msg) init 1 = [] := by simp [log_by, init]
  rw [h0, List.nil_append] at hch
  have hb : s.brk = 257 := by
    rw [hbrk, List.length_replicate]
    rfl
  have htail : s.chatmsgs_tail = 1 := by
    rw [hInv.tail, hb]
    rfl
  have hR : Reachable 1 s := by
    have h1 := reachable_appends 1 (List.replicate 256 (List.replicate 255 65)) init
      Reachable.init
    rw [happ] at h1
    exact h1
  have hcons : consolidate s = none := by
    simp only [consolidate]
    cases hrl : read_loop s.heap s.brk s.chatmsgs_tail [] with
    | none => rfl
    | some c =>
      have h1 := read_loop_lower s.heap s.brk hInv.next 256 1 s.brk [] c (by rw [hb]) (le_refl _)
        (by rw [htail] at hrl; exact hrl)
      have h2 : (List.range' 1 256).map (fun a => match s.heap a with
                                                  | none => []
                                                  | some e => chunk e.msg)
          = List.replicate 256 (List.replicate 255 65) := by
        rw [← hch]
        simp only [log_by, hb]
      rw [h2, List.nil_append, flatten_replicate_length, List.length_replicate] at h1
      have h3 : c.length > LOGLEN * BUFFERSIZE := by
        simp only [LOGLEN, BUFFERSIZE]
        omega
      simp only [h3, if_true]
  refine ⟨s, log_of s 1, happ, hR, entries_inv hInv, ?_, ?_, hcons, ?_⟩
  · rw [hlog, log_of_init]
    simp only [List.nil_append, List.length_map, List.length_replicate]
  · rw [htail]
    decide
  · intro u
    have h1 : s.chatmsgs_tail ≠ 0 := by
      rw [htail]
      decide
    simp only [chat_read, h1, if_false, hcons]

/-- C10: a write request whose offset is not zero returns `EINVAL` and leaves the whole module
state (heap, head, tail, counter) and the request untouched. -/
theorem C10_offset_rejection (s : State) (u : uio) (g : s_chat) (h : u.uio_offset ≠ 0) :
    chat_write s u g = some ⟨s, u, EINVAL⟩ := by
  simp [chat_write, h]

/-- C10 on the empty log, for a write of one byte at offset 5. -/
theorem C10_offset_rejection_witness :
    (write_req [65] 5 false).uio_offset ≠ 0
    ∧ chat_write init (write_req [65] 5 false) zeroed
        = some ⟨init, write_req [65] 5 false, EINVAL⟩ :=
  ⟨by decide, C10_offset_rejection init (write_req [65] 5 false) zeroed (by decide)⟩


/-! ## Failing copies, eviction and clear -/

theorem fails_succ (s : State) (n : Nat) :
    fails s (n + 1) = (chat_write s (write_req [65] 0 true) zeroed).bind
      (fun r => fails r.state n) := rfl

/-- What `chat_write` leaves in a zero filled block when the copy of one byte faults: nothing is
moved, `len` is `0`, and `uiomove` reports `EFAULT`. -/
theorem fill_entry_fault :
    fill_entry (write_req [65] 0 true) zeroed
      = some ({ zeroed with msg := upd zeroed.msg 0 0, len := 0 }, write_req [65] 0 true,
          EFAULT) := by
  simp [fill_entry, write_req, zeroed, BUFFERSIZE, INT_MAX, to_size_t, MIN, SIZE_MOD,
    uiomove_in, to_int]

/-- An append whose copy fails, below the capacity check: the entry is linked all the same, with
an empty content, and the counter grows by one. -/
theorem chat_write_fail {s : State} {lo : Nat} (hI : Inv s lo)
    (hlen : s.chatmsgs_len < (LOGLEN : Int)) :
    ∃ r, chat_write s (write_req [65] 0 true) zeroed = some r ∧ r.error = EFAULT
      ∧ Inv r.state lo ∧ r.state.chatmsgs_len = s.chatmsgs_len + 1
      ∧ r.state.brk = s.brk + 1 ∧ log_of r.state lo = log_of s lo ++ [[]] := by
  have hok : maintenance_ok s lo EFAULT := by
    refine ⟨Or.inl hlen, Or.inr ?_⟩
    simp only [LOGLEN, INT_MAX] at hlen ⊢
    omega
  obtain ⟨s1, hlm, hInv, hbrk, hcnt, ⟨e1, he1, hm1, hl1, _⟩, hold⟩ :=
    list_maintenance_ok hI { zeroed with msg := upd zeroed.msg 0 0, len := 0 } EFAULT hok
  have hge : ¬ s.chatmsgs_len ≥ (LOGLEN : Int) := by omega
  rw [if_neg hge] at hInv hold
  have herr : EFAULT ≠ 0 := by decide
  rw [if_pos herr] at hcnt
  refine ⟨⟨s1, write_req [65] 0 true, EFAULT⟩, ?_, rfl, hInv, hcnt, hbrk, ?_⟩
  · have h0 : (write_req [65] 0 true).uio_offset = 0 := rfl
    simp only [chat_write, h0, ne_eq, not_true_eq_false, if_false, fill_entry_fault, hlm]
  · have h1 := log_by_snoc content content_congr s s1 lo
      { zeroed with msg := upd zeroed.msg 0 0, len := 0 } e1 hbrk hI.lo_le he1 hm1 hl1 hold
      (fun a ha1 ha2 => inv_alive hI a ha1 ha2)
    simp only [log_of, h1]
    rfl

/-- A run of failing appends below the capacity check: each one links an empty entry and adds
one to the counter. -/
theorem fails_ok (n : Nat) :
    ∀ (s : State) (lo : Nat), Inv s lo → s.chatmsgs_len + n ≤ (LOGLEN : Int) →
      ∃ s1, fails s n = some s1 ∧ Inv s1 lo ∧ s1.chatmsgs_len = s.chatmsgs_len + n
        ∧ s1.brk = s.brk + n ∧ log_of s1 lo = log_of s lo ++ List.replicate n [] := by
  induction n with
  | zero =>
    intro s lo hI _
    exact ⟨s, rfl, hI, by simp, rfl, by simp⟩
  | succ n ih =>
    intro s lo hI hlen
    obtain ⟨r, hw, _, hInv, hcnt, hbrk, hlog⟩ := chat_write_fail hI (by push_cast at hlen; omega)
    obtain ⟨s1, hf, hInv1, hcnt1, hbrk1, hlog1⟩ :=
      ih r.state lo hInv (by rw [hcnt]; push_cast at hlen ⊢; omega)
    refine ⟨s1, by rw [fails_succ, hw]; exact hf, hInv1, ?_, ?_, ?_⟩
    · rw [hcnt1, hcnt]
      push_cast
      omega
    · rw [hbrk1, hbrk]
      omega
    · rw [hlog1, hlog, List.replicate_succ, List.append_assoc]
      rfl

theorem reachable_fails (D : Nat) (n : Nat) :
    ∀ s, Reachable D s → Reachable D ((fails s n).getD s) := by
  induction n with
  | zero =>
    intro s hs
    exact hs
  | succ n ih =>
    intro s hs
    rw [fails_succ]
    cases hw : chat_write s (write_req [65] 0 true) zeroed with
    | none => exact hs
    | some r =>
      have h1 := ih r.state (Reachable.write s _ _ r hs hw)
      simp only [Option.bind]
      cases ha : fails r.state n with
      | none => exact hs
      | some s1 =>
        rw [ha] at h1
        exact h1

/-- Dropping the oldest entry of the log. -/
theorem log_by_tail (F : s_chat → List Nat) (s : State) (lo : Nat) (h : lo < s.brk) :
    log_by F s (lo + 1) = (log_by F s lo).tail := by
  have h1 : s.brk - lo = (s.brk - (lo + 1)) + 1 := by omega
  simp only [log_by]
  rw [h1, List.range'_succ]
  simp

/-- The clear command on a state whose links are both `NULL` changes nothing. -/
theorem chat_ioctl_clear_empty (D : Nat) (s : State) (hh : s.chatmsgs_head = 0)
    (ht : s.chatmsgs_tail = 0) : chat_ioctl D s D = some (s, 0) := by
  cases s
  simp only at hh ht
  subst hh
  subst ht
  simp [chat_ioctl, free_loop_null]

/-- In a state of the invariant shape an empty log has a `NULL` head. -/
theorem head_null_of_empty {s : State} {lo : Nat} (hI : Inv s lo) (h : entries s = some []) :
    s.chatmsgs_head = 0 ∧ s.chatmsgs_tail = 0 := by
  have ht := (entries_nil_iff hI).1 h
  have hlo := hI.lo_pos
  have h1 := hI.tail
  have h2 := hI.head
  rw [ht] at h1
  by_cases hlt : lo < s.brk
  · rw [if_pos hlt] at h1
    omega
  · rw [if_neg hlt] at h2
    exact ⟨h2, ht⟩

/-- The counter after the list maintenance, in any state. -/
theorem list_maintenance_len (s : State) (e : s_chat) (error : Int) (s1 : State)
    (h : list_maintenance s e error = some s1) :
    s1.chatmsgs_len = if error ≠ 0 then s.chatmsgs_len + 1 else s.chatmsgs_len := by
  simp only [list_maintenance] at h
  split at h
  · exact absurd h (by simp)
  · split at h
    · exact absurd h (by simp)
    · split at h
      · rename_i herr
        split at h
        · exact absurd h (by simp)
        · cases h
          simp [herr]
      · rename_i herr
        cases h
        simp [herr]

/-- The error code `fill_entry` hands on is the one `uiomove` returned. -/
theorem fill_entry_error (u : uio) (g : s_chat) (e : s_chat) (u1 : uio) (error : Int)
    (h : fill_entry u g = some (e, u1, error)) :
    error = (uiomove_in g.msg u.uio_offset.toNat
      (to_int (to_size_t (MIN u.uio_resid ((BUFFERSIZE : Int) - g.len)))) u).2.2 := by
  simp only [fill_entry] at h
  split at h
  · exact absurd h (by simp)
  · split at h
    · exact absurd h (by simp)
    · split at h
      · exact absurd h (by simp)
      · simp only [Option.some.injEq, Prod.mk.injEq] at h
        exact h.2.2.symm

/-- After 255 failing appends to the empty log the counter has reached `LOGLEN` and the log holds
255 empty entries. -/
theorem fails_full :
    ∃ s, fails init 255 = some s ∧ Inv s 1 ∧ s.chatmsgs_len = 255 ∧ s.brk = 256
      ∧ entries s = some (List.replicate 255 []) := by
  obtain ⟨s, hf, hI, hlen, hbrk, hlog⟩ := fails_ok 255 init 1 inv_init (by decide)
  refine ⟨s, hf, hI, ?_, ?_, ?_⟩
  · rw [hlen]
    rfl
  · rw [hbrk]
    rfl
  · rw [entries_inv hI, hlog, log_of_init, List.nil_append]

/-- Once the head entry points to itself, the walk of `chat_read` has no defined result, whatever
the number of steps it is given. -/
theorem read_loop_self (h : Nat → Option s_chat) (p : Nat) (e : s_chat) (hp : p ≠ 0)
    (he : h p = some e) (hn : e.next_msg = p) :
    ∀ fuel acc, read_loop h fuel p acc = none := by
  intro fuel
  induction fuel with
  | zero =>
    intro acc
    simp [read_loop, hp]
  | succ f ih =>
    intro acc
    simp only [read_loop, hp, if_false, he, hn]
    split
    · rfl
    · exact ih _

/-! ## The claims on the control channel, the counter and the links -/

/-- C11: in every reachable state, `chat_ioctl` with the command `DEVCHATCLR` clears the log
(both links `NULL`, no entry left) and returns `0`; with any other command it returns `EDOOFUS`,
which is not `0`, and leaves the module state as it was; so it returns `0` exactly when the
command is `DEVCHATCLR`. -/
theorem C11_control_channel (D : Nat) (s : State) (hR : Reachable D s) (cmd : Nat) :
    (cmd = D → ∃ s1, chat_ioctl D s cmd = some (s1, 0) ∧ s1.chatmsgs_head = 0
        ∧ s1.chatmsgs_tail = 0 ∧ entries s1 = some [])
    ∧ (cmd ≠ D → chat_ioctl D s cmd = some (s, EDOOFUS))
    ∧ EDOOFUS ≠ 0
    ∧ (∀ s1 err, chat_ioctl D s cmd = some (s1, err) → (err = 0 ↔ cmd = D)) := by
  obtain ⟨lo, hI⟩ := reachable_inv D s hR
  obtain ⟨s1, hcl, hInv, _, hhead, htail, _⟩ := chat_ioctl_clear_inv hI D
  refine ⟨?_, ?_, by decide, ?_⟩
  · intro hcmd
    subst hcmd
    exact ⟨s1, hcl, hhead, htail, (entries_nil_iff hInv).2 htail⟩
  · intro hcmd
    simp [chat_ioctl, hcmd]
  · intro s2 err h
    by_cases hcmd : cmd = D
    · subst hcmd
      rw [hcl] at h
      simp only [Option.some.injEq, Prod.mk.injEq] at h
      simp [← h.2]
    · simp only [chat_ioctl, hcmd, if_false, Option.some.injEq, Prod.mk.injEq] at h
      rw [← h.2]
      simp only [hcmd, iff_false]
      decide

/-- C11 on the log that holds the message `a`, with `DEVCHATCLR = 1` and the command `2`. -/
theorem C11_control_channel_witness :
    Reachable 1 ((appends init [[97]]).getD init)
    ∧ ((2 = 1 → ∃ s1, chat_ioctl 1 ((appends init [[97]]).getD init) 2 = some (s1, 0)
          ∧ s1.chatmsgs_head = 0 ∧ s1.chatmsgs_tail = 0 ∧ entries s1 = some [])
      ∧ (2 ≠ 1 → chat_ioctl 1 ((appends init [[97]]).getD init) 2
          = some ((appends init [[97]]).getD init, EDOOFUS))
      ∧ EDOOFUS ≠ 0
      ∧ (∀ s1 err, chat_ioctl 1 ((appends init [[97]]).getD init) 2 = some (s1, err) →
          (err = 0 ↔ 2 = 1))) :=
  ⟨reachable_appends 1 _ init Reachable.init,
    C11_control_channel 1 _ (reachable_appends 1 _ init Reachable.init) 2⟩

/-- C12: in every reachable state, clearing a log that holds no entry returns `0` and leaves the
module state as it was; and clearing any log returns `0` and gives a state on which a second
clear returns `0` and changes nothing. -/
theorem C12_idempotent_clear (D : Nat) (s : State) (hR : Reachable D s) :
    (entries s = some [] → chat_ioctl D s D = some (s, 0))
    ∧ ∃ s1, chat_ioctl D s D = some (s1, 0) ∧ chat_ioctl D s1 D = some (s1, 0) := by
  obtain ⟨lo, hI⟩ := reachable_inv D s hR
  constructor
  · intro h
    obtain ⟨hh, ht⟩ := head_null_of_empty hI h
    exact chat_ioctl_clear_empty D s hh ht
  · obtain ⟨s1, hcl, _, _, hhead, htail, _⟩ := chat_ioctl_clear_inv hI D
    exact ⟨s1, hcl, chat_ioctl_clear_empty D s1 hhead htail⟩

/-- C12 on the log that holds the messages `a` and `b`. -/
theorem C12_idempotent_clear_witness :
    Reachable 1 ((appends init [[97], [98]]).getD init)
    ∧ ((entries ((appends init [[97], [98]]).getD init) = some [] →
          chat_ioctl 1 ((appends init [[97], [98]]).getD init) 1
            = some ((appends init [[97], [98]]).getD init, 0))
      ∧ ∃ s1, chat_ioctl 1 ((appends init [[97], [98]]).getD init) 1 = some (s1, 0)
          ∧ chat_ioctl 1 s1 1 = some (s1, 0)) :=
  ⟨reachable_appends 1 _ init Reachable.init,
    C12_idempotent_clear 1 _ (reachable_appends 1 _ init Reachable.init)⟩

/-- C13 (count tracks appends) fails on the code: after three appends to the empty log whose
copies succeed, three entries are linked into the log and `chatmsgs_len`, the counter the
capacity check reads, is still `0`. -/
theorem C13_counter_not_incremented :
    (appends init [[65]]).map (fun s => (s.chatmsgs_len, (entries s).map List.length))
      = some (0, some 1)
    ∧ (appends init [[65], [66], [67]]).map
        (fun s => (s.chatmsgs_len, (entries s).map List.length)) = some (0, some 3) := by
  decide

/-- C14: in every reachable state whose counter has reached `LOGLEN` and whose log holds at least
two entries, the list maintenance of `chat_write` is defined (short of an overflow of the
counter) and gives the log without its oldest entry, followed by the new entry: the number of
entries is unchanged, the second oldest entry is the tail and has a null `prev_msg`, and the new
entry is the head.  A `chat_write` at offset 0 that has built the entry `e` returns that state. -/
theorem C14_eviction_step (D : Nat) (s : State) (hR : Reachable D s) (e : s_chat) (error : Int)
    (l : List (List Nat)) (hlen : s.chatmsgs_len ≥ (LOGLEN : Int)) (hent : entries s = some l)
    (h2 : 2 ≤ l.length) (hover : error = 0 ∨ s.chatmsgs_len < INT_MAX) :
    ∃ s1 t hd, list_maintenance s e error = some s1
      ∧ (∀ u g u1, u.uio_offset = 0 → fill_entry u g = some (e, u1, error) →
          chat_write s u g = some ⟨s1, u1, error⟩)
      ∧ entries s1 = some (l.tail ++ [content e])
      ∧ (l.tail ++ [content e]).length = l.length
      ∧ deref s1.heap s1.chatmsgs_tail = some t ∧ t.prev_msg = 0
      ∧ l.tail.head? = some (content t)
      ∧ deref s1.heap s1.chatmsgs_head = some hd ∧ hd.msg = e.msg ∧ hd.len = e.len := by
  obtain ⟨lo, hI⟩ := reachable_inv D s hR
  have hlo := hI.lo_pos
  rw [entries_inv hI] at hent
  cases hent
  have hlen2 : (log_of s lo).length = s.brk - lo := by simp [log_of, log_by]
  have hlt : lo + 1 < s.brk := by omega
  obtain ⟨s1, hlm, hInv, hbrk, _, ⟨e1, he1, hm1, hl1, _⟩, hold⟩ :=
    list_maintenance_ok hI e error ⟨Or.inr hlt, hover⟩
  rw [if_pos hlen] at hInv hold
  obtain ⟨n, hn⟩ := inv_alive hI (lo + 1) (by omega) hlt
  obtain ⟨n1, hn1, hnm, hnl⟩ := hold (lo + 1) n (le_refl _) hlt hn
  have hlog : log_of s1 (lo + 1) = (log_of s lo).tail ++ [content e] := by
    simp only [log_of]
    rw [log_by_snoc content content_congr s s1 (lo + 1) e e1 hbrk (by omega) he1 hm1 hl1 hold
      (fun a ha1 ha2 => inv_alive hI a (by omega) ha2), log_by_tail content s lo (by omega)]
  have htail : s1.chatmsgs_tail = lo + 1 := by
    rw [hInv.tail, if_pos (by omega)]
  have hhead : s1.chatmsgs_head = s.brk := by
    rw [hInv.head, if_pos (by omega), hbrk]
    omega
  refine ⟨s1, n1, e1, hlm, ?_, ?_, ?_, ?_, ?_, ?_, ?_, hm1, hl1⟩
  · intro u g u1 hoff hfill
    simp only [chat_write, hoff, ne_eq, not_true_eq_false, if_false, hfill, hlm]
  · rw [entries_inv hInv, hlog]
  · simp only [List.length_append, List.length_tail, List.length_singleton]
    omega
  · rw [htail]
    simp [deref, hn1]
  · have := hInv.prev (lo + 1) n1 hn1
    simpa using this
  · have h3 : s.brk - lo = (s.brk - (lo + 1 + 1)) + 1 + 1 := by omega
    simp only [log_of, log_by]
    rw [h3, List.range'_succ, List.range'_succ]
    simp only [List.map_cons, List.tail_cons, List.head?_cons, hn, Option.some.injEq]
    exact (content_congr n n1 hnm hnl).symm
  · rw [hhead]
    have : s.brk ≠ 0 := by omega
    simp [deref, this, he1]

/-- C14 on the log reached by 255 appends whose copy failed (255 empty entries, counter 255),
for a new zero filled entry and a copy that succeeded. -/
theorem C14_eviction_step_witness :
    Reachable 1 ((fails init 255).getD init)
    ∧ ((fails init 255).getD init).chatmsgs_len ≥ (LOGLEN : Int)
    ∧ entries ((fails init 255).getD init) = some (List.replicate 255 [])
    ∧ 2 ≤ (List.replicate 255 ([] : List Nat)).length
    ∧ ((0 : Int) = 0 ∨ ((fails init 255).getD init).chatmsgs_len < INT_MAX)
    ∧ ∃ s1 t hd, list_maintenance ((fails init 255).getD init) zeroed 0 = some s1
        ∧ (∀ u g u1, u.uio_offset = 0 → fill_entry u g = some (zeroed, u1, 0) →
            chat_write ((fails init 255).getD init) u g = some ⟨s1, u1, 0⟩)
        ∧ entries s1 = some ((List.replicate 255 []).tail ++ [content zeroed])
        ∧ ((List.replicate 255 ([] : List Nat)).tail ++ [content zeroed]).length
            = (List.replicate 255 ([] : List Nat)).length
        ∧ deref s1.heap s1.chatmsgs_tail = some t ∧ t.prev_msg = 0
        ∧ (List.replicate 255 ([] : List Nat)).tail.head? = some (content t)
        ∧ deref s1.heap s1.chatmsgs_head = some hd ∧ hd.msg = zeroed.msg
        ∧ hd.len = zeroed.len := by
  have hR := reachable_fails 1 255 init Reachable.init
  obtain ⟨s, hf, _, hlen, _, hent⟩ := fails_full
  have hs : (fails init 255).getD init = s := by
    rw [hf]
    rfl
  rw [hs] at hR ⊢
  have h1 : s.chatmsgs_len ≥ (LOGLEN : Int) := by
    rw [hlen]
    decide
  have h2 : 2 ≤ (List.replicate 255 ([] : List Nat)).length := by
    rw [List.length_replicate]
    decide
  exact ⟨hR, h1, hent, h2, Or.inl rfl,
    C14_eviction_step 1 s hR zeroed 0 (List.replicate 255 []) h1 hent h2 (Or.inl rfl)⟩

/-- C15: on every non-empty log whose walk completes with content `c` of length `L`, a read of
`r` bytes at offset `o` asks `uiomove` for `min(r, L + 1 - o)` bytes when `o < L + 1` and for
none otherwise, and that many bytes are transferred when the copy succeeds; a read at offset 0 of
at least `L + 1` bytes transfers the content followed by one zero byte. -/
theorem C15_read_budget (s : State) (c : List Nat) (o r : Nat) (hne : s.chatmsgs_tail ≠ 0)
    (hc : consolidate s = some c) :
    (∀ f, read_amt (read_req o r f) c.length
        = if o < c.length + 1 then min r (c.length + 1 - o) else 0)
    ∧ (∃ x, chat_read s (read_req o r false) = some x ∧ x.error = 0
        ∧ x.io.iov.length = if o < c.length + 1 then min r (c.length + 1 - o) else 0)
    ∧ (c.length + 1 ≤ r →
        ∃ x, chat_read s (read_req 0 r false) = some x ∧ x.error = 0
          ∧ x.io.iov = c ++ [0]) := by
  have hL := consolidate_length s c hc
  have hamt : read_amt (read_req o r false) c.length
      = if o < c.length + 1 then min r (c.length + 1 - o) else 0 := by
    rw [read_amt_req o r c.length hL]
    split_ifs <;> omega
  refine ⟨fun f => hamt, ?_, ?_⟩
  · have hrd := chat_read_ok s (read_req o r false) c hne hc (by simp [read_req])
    have hti := to_int_read_amt o r c.length hL
    refine ⟨_, hrd, ?_, ?_⟩
    · simp only [uiomove_out, read_req, Bool.false_eq_true, false_and, if_false]
    · rw [hti, hamt]
      simp only [uiomove_out, read_req, Bool.false_eq_true, false_and, if_false,
        List.nil_append, List.length_take, List.length_append, List.length_singleton,
        Int.toNat_ofNat]
      split_ifs <;> omega
  · intro hr
    have hrd := chat_read_ok s (read_req 0 r false) c hne hc (le_refl _)
    have hamt0 := read_amt_req 0 r c.length hL
    have hti := to_int_read_amt 0 r c.length hL
    simp only [Nat.cast_zero] at hamt0 hti
    refine ⟨_, hrd, ?_, ?_⟩
    · simp only [uiomove_out, read_req, Bool.false_eq_true, false_and, if_false]
    · rw [hti, hamt0]
      simp only [uiomove_out, read_req, Bool.false_eq_true, false_and, if_false,
        List.nil_append, Int.toNat_ofNat]
      have h1 : ¬ (c.length + 1 ≤ 0) := by omega
      rw [if_neg h1]
      apply List.take_of_length_le
      simp only [List.length_append, List.length_singleton]
      omega

/-- C15 on the log that holds the single message `abc`, for a read of 10 bytes at offset 1. -/
theorem C15_read_budget_witness :
    ((appends init [[97, 98, 99]]).getD init).chatmsgs_tail ≠ 0
    ∧ consolidate ((appends init [[97, 98, 99]]).getD init) = some [97, 98, 99]
    ∧ (∀ f, read_amt (read_req ((1 : Nat) : Int) 10 f) (([97, 98, 99] : List Nat).length : Int)
        = if 1 < ([97, 98, 99] : List Nat).length + 1
          then min 10 (([97, 98, 99] : List Nat).length + 1 - 1) else 0)
    ∧ (∃ x, chat_read ((appends init [[97, 98, 99]]).getD init)
          (read_req ((1 : Nat) : Int) 10 false) = some x ∧ x.error = 0
        ∧ x.io.iov.length = if 1 < ([97, 98, 99] : List Nat).length + 1
            then min 10 (([97, 98, 99] : List Nat).length + 1 - 1) else 0)
    ∧ (([97, 98, 99] : List Nat).length + 1 ≤ 10 →
        ∃ x, chat_read ((appends init [[97, 98, 99]]).getD init)
            (read_req ((0 : Nat) : Int) 10 false) = some x ∧ x.error = 0
          ∧ x.io.iov = [97, 98, 99] ++ [0]) :=
  ⟨by decide, by decide,
    C15_read_budget ((appends init [[97, 98, 99]]).getD init) [97, 98, 99] 1 10 (by decide)
      (by decide)⟩

/-- C16 (no abort in list maintenance) fails on the code: 255 appends whose copy fails bring the
counter to `LOGLEN`; the clear command then nulls both links and leaves the counter at 255.  In
that reachable state the eviction branch of `chat_write` is taken with `chatmsgs_tail == NULL`:
`chatmsgs_tail->next_msg` dereferences a null pointer, and no write at offset 0 has a defined
outcome. -/
theorem C16_null_tail_dereferenced :
    ∃ s, (fails init 255).bind clear = some s ∧ Reachable 1 s
      ∧ s.chatmsgs_len ≥ (LOGLEN : Int) ∧ s.chatmsgs_tail = 0
      ∧ deref s.heap s.chatmsgs_tail = none
      ∧ (∀ e, evict (upd s.heap s.brk (some e)) s.chatmsgs_tail = none)
      ∧ ∀ u g, u.uio_offset = 0 → chat_write s u g = none := by
  have hR := reachable_fails 1 255 init Reachable.init
  obtain ⟨s, hf, hI, hlen, hbrk, _⟩ := fails_full
  have hs : (fails init 255).getD init = s := by
    rw [hf]
    rfl
  rw [hs] at hR
  obtain ⟨s1, hcl, hInv, hbrk1, _, htail, hlen1⟩ := chat_ioctl_clear_inv hI 1
  have hge : s1.chatmsgs_len ≥ (LOGLEN : Int) := by
    rw [hlen1, hlen]
    decide
  refine ⟨s1, ?_, Reachable.ioctl s 1 s1 0 hR hcl, hge, htail, ?_, ?_, ?_⟩
  · rw [hf]
    simp only [Option.bind, clear, hcl, Option.map_some']
  · simp [deref, htail]
  · intro e
    simp [evict, deref, htail]
  · intro u g hoff
    simp only [chat_write, hoff, ne_eq, not_true_eq_false, if_false]
    cases hfill : fill_entry u g with
    | none => rfl
    | some p =>
      obtain ⟨e, u1, err⟩ := p
      have hcr := list_maintenance_crash hInv e err (by
        intro hok
        rcases hok.1 with h | h
        · omega
        · omega)
      simp only [hcr]

/-- C17: a `chat_write` that returns leaves the state alone when the offset is not zero; at
offset 0 it returns the error code of `uiomove` and changes `chatmsgs_len` only by adding one,
exactly when that code is not `0`; `chat_read` and `chat_ioctl` never change the counter. -/
theorem C17_counter_rule (s : State) (u : uio) (g : s_chat) (r : Ret)
    (h : chat_write s u g = some r) :
    (u.uio_offset ≠ 0 → r.state = s)
    ∧ (u.uio_offset = 0 →
        r.error = (uiomove_in g.msg 0
          (to_int (to_size_t (MIN u.uio_resid ((BUFFERSIZE : Int) - g.len)))) u).2.2
        ∧ r.state.chatmsgs_len
            = if r.error ≠ 0 then s.chatmsgs_len + 1 else s.chatmsgs_len)
    ∧ (∀ u2 r2, chat_read s u2 = some r2 → r2.state.chatmsgs_len = s.chatmsgs_len)
    ∧ (∀ D cmd s2 e2, chat_ioctl D s cmd = some (s2, e2) →
        s2.chatmsgs_len = s.chatmsgs_len) := by
  refine ⟨?_, ?_, ?_, ?_⟩
  · intro hoff
    simp only [chat_write, hoff, ne_eq, not_false_eq_true, if_true] at h
    cases h
    rfl
  · intro hoff
    simp only [chat_write, hoff, ne_eq, not_true_eq_false, if_false] at h
    split at h
    · exact absurd h (by simp)
    · rename_i e u1 error hfill
      split at h
      · exact absurd h (by simp)
      · rename_i s1 hlm
        cases h
        have h1 := fill_entry_error u g e u1 error hfill
        rw [hoff] at h1
        exact ⟨h1, list_maintenance_len s e error s1 hlm⟩
  · intro u2 r2 h2
    rw [chat_read_state s u2 r2 h2]
  · intro D cmd s2 e2 h2
    simp only [chat_ioctl] at h2
    split at h2
    · split at h2
      · exact absurd h2 (by simp)
      · cases h2
        rfl
    · cases h2
      rfl

/-- C17 on the empty log, for a write of one byte at offset 0 whose copy fails: the write
returns `EFAULT` and the counter goes from 0 to 1. -/
theorem C17_counter_rule_witness :
    chat_write init (write_req [65] 0 true) zeroed
      = some ((chat_write init (write_req [65] 0 true) zeroed).getD ⟨init, write_req [65] 0 true, 0⟩)
    ∧ ((chat_write init (write_req [65] 0 true) zeroed).map
        (fun r => (r.error, r.state.chatmsgs_len))) = some (14, 1)
    ∧ (((write_req [65] 0 true).uio_offset ≠ 0 →
          ((chat_write init (write_req [65] 0 true) zeroed).getD
            ⟨init, write_req [65] 0 true, 0⟩).state = init)
      ∧ ((write_req [65] 0 true).uio_offset = 0 →
          ((chat_write init (write_req [65] 0 true) zeroed).getD
            ⟨init, write_req [65] 0 true, 0⟩).error
            = (uiomove_in zeroed.msg 0
                (to_int (to_size_t (MIN (write_req [65] 0 true).uio_resid
                  ((BUFFERSIZE : Int) - zeroed.len)))) (write_req [65] 0 true)).2.2
          ∧ ((chat_write init (write_req [65] 0 true) zeroed).getD
              ⟨init, write_req [65] 0 true, 0⟩).state.chatmsgs_len
              = if ((chat_write init (write_req [65] 0 true) zeroed).getD
                    ⟨init, write_req [65] 0 true, 0⟩).error ≠ 0
                then init.chatmsgs_len + 1 else init.chatmsgs_len)
      ∧ (∀ u2 r2, chat_read init u2 = some r2 → r2.state.chatmsgs_len = init.chatmsgs_len)
      ∧ (∀ D cmd s2 e2, chat_ioctl D init cmd = some (s2, e2) →
          s2.chatmsgs_len = init.chatmsgs_len)) := by
  have hw : chat_write init (write_req [65] 0 true) zeroed
      = some ((chat_write init (write_req [65] 0 true) zeroed).getD
          ⟨init, write_req [65] 0 true, 0⟩) := by
    obtain ⟨r, hr, _⟩ := chat_write_fail inv_init (by decide)
    rw [hr]
    rfl
  exact ⟨hw, by decide, C17_counter_rule init (write_req [65] 0 true) zeroed _ hw⟩

/-- C18 (link well-formedness) fails on the code: `chat_write` never assigns `msg->next_msg`, so
the `next_msg` link of the head is whatever the fresh block held.  After one append into a block
whose `next_msg` field holds the address the block itself gets, the `prev_msg` walk is sound (one
entry, null `prev_msg`), but the head has a non-null `next_msg`, the traversal loop of
`chat_read` comes back to the same entry for ever, and no read has a defined outcome. -/
theorem C18_head_next_never_set :
    ∃ r e, chat_write init (write_req [97] 0 false) { zeroed with next_msg := 1 } = some r
      ∧ Reachable 1 r.state
      ∧ entries r.state = some [[97]]
      ∧ r.state.chatmsgs_head = 1 ∧ r.state.chatmsgs_tail = 1
      ∧ deref r.state.heap r.state.chatmsgs_head = some e
      ∧ e.prev_msg = 0 ∧ e.next_msg = 1 ∧ e.next_msg ≠ 0
      ∧ (∀ fuel acc, read_loop r.state.heap fuel r.state.chatmsgs_tail acc = none)
      ∧ ∀ u, chat_read r.state u = none := by
  obtain ⟨r, e0, hw, _, hInv, _, hbrk, ⟨e1, he1, _, _, hn1⟩, _, hc, _, _, hlog⟩ :=
    chat_write_append inv_init (by decide) [97] { zeroed with next_msg := 1 } rfl
  have hb : init.brk = 1 := rfl
  rw [hb] at hbrk he1
  have hhead : r.state.chatmsgs_head = 1 := by
    rw [hInv.head, hbrk]
    rfl
  have htail : r.state.chatmsgs_tail = 1 := by
    rw [hInv.tail, hbrk]
    rfl
  have hnx : e1.next_msg = 1 := hn1
  have hloop := read_loop_self r.state.heap 1 e1 (by decide) he1 hnx
  refine ⟨r, e1, hw, Reachable.write init _ _ r Reachable.init hw, ?_, hhead, htail, ?_, ?_,
    hnx, by rw [hnx]; decide, ?_, ?_⟩
  · rw [entries_inv hInv]
    simp only [log_of]
    rw [hlog content content_congr, hc]
    simp [log_by, init]
  · rw [hhead]
    simp [deref, he1]
  · have := hInv.prev 1 e1 he1
    simpa using this
  · rw [htail]
    exact hloop
  · intro u
    simp [chat_read, consolidate, htail, hloop]

/-- C19: a `chat_read` that returns leaves the module state as it was, whatever the offset, the
length and the outcome of the copy; the same request issued again on the state it returns gives
the same result, hence the same bytes. -/
theorem C19_read_pure (s : State) (u : uio) (r : Ret) (h : chat_read s u = some r) :
    r.state = s ∧ chat_read r.state u = some r
      ∧ ∀ r2, chat_read r.state u = some r2 → r2.io.iov = r.io.iov ∧ r2.error = r.error := by
  have hs := chat_read_state s u r h
  refine ⟨hs, by rw [hs]; exact h, ?_⟩
  intro r2 h2
  rw [hs, h] at h2
  cases h2
  exact ⟨rfl, rfl⟩

/-- C19 on the log that holds the single message `abc`, for a read of 2 bytes at offset 0. -/
theorem C19_read_pure_witness :
    chat_read ((appends init [[97, 98, 99]]).getD init) (read_req 0 2 false)
      = some ⟨(appends init [[97, 98, 99]]).getD init,
          { uio_offset := 2, uio_resid := 0, iov := [97, 98], fault := false }, 0⟩
    ∧ ((appends init [[97, 98, 99]]).getD init = (appends init [[97, 98, 99]]).getD init
      ∧ chat_read ((appends init [[97, 98, 99]]).getD init) (read_req 0 2 false)
          = some ⟨(appends init [[97, 98, 99]]).getD init,
              { uio_offset := 2, uio_resid := 0, iov := [97, 98], fault := false }, 0⟩
      ∧ ∀ r2, chat_read ((appends init [[97, 98, 99]]).getD init) (read_req 0 2 false)
            = some r2 → r2.io.iov = [97, 98] ∧ r2.error = 0) :=
  ⟨by rfl, C19_read_pure ((appends init [[97, 98, 99]]).getD init) (read_req 0 2 false)
    ⟨(appends init [[97, 98, 99]]).getD init,
      { uio_offset := 2, uio_resid := 0, iov := [97, 98], fault := false }, 0⟩ (by rfl)⟩

end Devchat
